import Mathlib

/-!
Verification of the poker_game engine.

This file gives a shallow embedding of the chip-accounting core of the
repository (src/engine/chip_stack.py, player.py, hand.py, escalator.py,
seed_gen.py) and proves theorems checking the natural-language
specification against it.  Machine integers are modelled as Int/Nat with
explicit wrapping where the source masks; fallible code (Python raise /
assert) returns Option or Except.
-/

namespace Poker

/-! ### ChipStack (src/engine/chip_stack.py)

A ChipStack holds a single integer balance.  `pop` raises ValueError on a
negative amount or on overdraw; `add` raises ValueError on a negative
amount.  We model the balance as an Int (the constructor asserts it is
non-negative) and the two possible ValueErrors as an error type. -/

inductive ChipError where
  | invalidAmount
  | insufficientFunds
deriving DecidableEq, Repr

/-- ChipStack.pop: on success returns (new balance, popped amount). -/
def chipPop (balance amount : Int) : Except ChipError (Int × Int) :=
  if amount < 0 then .error .invalidAmount
  else if amount > balance then .error .insufficientFunds
  else .ok (balance - amount, amount)

/-- ChipStack.add: on success returns the new balance. -/
def chipAdd (balance amount : Int) : Except ChipError Int :=
  if amount < 0 then .error .invalidAmount
  else .ok (balance + amount)

/-- The balance after a pop attempt; on failure the stack is untouched. -/
def chipPopBalance (balance amount : Int) : Int :=
  match chipPop balance amount with
  | .ok (b, _) => b
  | .error _ => balance

/-- The balance after an add attempt; on failure the stack is untouched. -/
def chipAddBalance (balance amount : Int) : Int :=
  match chipAdd balance amount with
  | .ok b => b
  | .error _ => balance

/-! ### Blind escalators (src/engine/escalator.py) -/

/-- One blind level: (small blind, big blind, ante, big blind ante).
Fields are Int exactly as in the source tables. -/
structure BlindLevel where
  sb : Int
  bb : Int
  ante : Int
  bba : Int
deriving DecidableEq, Repr

/-- NoLimitHoldemEscalator.LEVELS. -/
def nlheLevels : List BlindLevel :=
  [⟨10, 20, 0, 0⟩, ⟨15, 30, 0, 0⟩, ⟨20, 40, 0, 0⟩,
   ⟨25, 50, 0, 50⟩, ⟨50, 100, 0, 100⟩, ⟨75, 150, 0, 150⟩,
   ⟨100, 200, 0, 200⟩, ⟨150, 300, 0, 300⟩, ⟨200, 400, 0, 400⟩,
   ⟨300, 600, 0, 600⟩, ⟨400, 800, 0, 800⟩, ⟨500, 1000, 0, 1000⟩,
   ⟨1000, 2000, 0, 2000⟩, ⟨1500, 3000, 0, 3000⟩, ⟨3000, 6000, 0, 6000⟩,
   ⟨5000, 10000, 0, 10000⟩]

/-- SurvivalEscalator.LEVELS. -/
def survivalLevels : List BlindLevel :=
  [⟨50, 100, 0, 0⟩, ⟨100, 200, 0, 200⟩, ⟨200, 400, 0, 400⟩,
   ⟨500, 1000, 0, 1000⟩, ⟨1000, 2000, 0, 2000⟩]

/-- Python list indexing: non-negative indexes read from the front,
negative indexes wrap from the back, anything else raises IndexError
(modelled as none). -/
def pyListGet {α : Type} (l : List α) (i : Int) : Option α :=
  if 0 ≤ i then l[i.toNat]?
  else if 0 ≤ i + l.length then l[(i + (l.length : Int)).toNat]?
  else none

/-- Level index of the time-based ladder: hand_count // hands_per_level
after clamping negative hand counts to 0 (both operands are then
non-negative, so Python // is Nat division). -/
def nlheLevelIndex (handsPerLevel : Nat) (handCount : Int) : Nat :=
  (if handCount < 0 then 0 else handCount).toNat / handsPerLevel

/-- NoLimitHoldemEscalator.get_blind_parameters.  The level index is
capped at the last level.  hands_per_level = 0 would raise
ZeroDivisionError (none). -/
def nlheGetBlindParameters (handsPerLevel : Nat) (handCount activePlayerCount : Int) :
    Option BlindLevel :=
  if handsPerLevel = 0 then none
  else pyListGet nlheLevels
    (if nlheLevelIndex handsPerLevel handCount ≥ nlheLevels.length
     then nlheLevels.length - 1
     else nlheLevelIndex handsPerLevel handCount)

/-- Level index of the survival ladder: (start_count -
active_player_count) // 2, which may be negative; Python floor division
is Int.fdiv. -/
def survivalLevelIndex (startCount activePlayerCount : Int) : Int :=
  Int.fdiv (startCount - activePlayerCount) 2

/-- SurvivalEscalator.get_blind_parameters: the level index is capped at
the last level from above, but a negative index reaches Python list
indexing unchanged. -/
def survivalGetBlindParameters (startCount handCount activePlayerCount : Int) :
    Option BlindLevel :=
  pyListGet survivalLevels
    (if survivalLevelIndex startCount activePlayerCount ≥ (survivalLevels.length : Int)
     then (survivalLevels.length : Int) - 1
     else survivalLevelIndex startCount activePlayerCount)

/-! ### Master seed selection (src/engine/seed_gen.py) -/

/-- generate_game_seed.  The argument is Option Int (None or a chosen
seed); `ambient` models the value random.randint(0, 2^32 - 1) from the
ambient global generator would return.  Python truthiness: both None and
0 take the random path. -/
def generate_game_seed (seed : Option Int) (ambient : Nat) : Nat :=
  match seed with
  | some s => if s = 0 then ambient else s.natAbs % 2 ^ 32
  | none => ambient

/-! ### Player (src/engine/player.py) -/

inductive HandStatus where
  | active
  | folded
  | allin
deriving DecidableEq, Repr

/-- The per-seat state touched by the betting / pot machinery. -/
structure Player where
  stack : Nat          -- stack.amount (ChipStack, never negative)
  handStatus : HandStatus
  unresolved : Nat     -- unresolved_chips
  totalBet : Nat       -- total_bet_this_hand
  canRaise : Bool      -- can_raise
deriving DecidableEq, Repr

instance : Inhabited Player := ⟨⟨0, .active, 0, 0, false⟩⟩

/-- Player.is_actable (the source first asserts
unresolved_chips <= max_bet). -/
def Player.is_actable (p : Player) (maxBet : Nat) : Bool :=
  if p.handStatus = .folded ∨ p.handStatus = .allin then false
  else if p.unresolved ≠ maxBet then true
  else if p.canRaise then true
  else false

/-- Player.set_raise. -/
def Player.set_raise (p : Player) : Player := { p with canRaise := true }

/-- Player.fold. -/
def Player.fold (p : Player) : Player := { p with handStatus := .folded }

/-- Player.resolve: moves amount out of unresolved_chips; raises
ValueError (none) when the amount exceeds unresolved_chips. -/
def Player.resolve (p : Player) (amount : Nat) : Option Player :=
  if amount > p.unresolved then none
  else some { p with unresolved := p.unresolved - amount }

/-- Player.bet: a negative request raises ValueError (none); a request
at or above the stack balance is clamped to the whole stack and forces
hand_status = all-in; the chips are popped from the player's stack (the
caller adds them to a collection stack), unresolved_chips and
total_bet_this_hand grow by the amount actually moved, and can_raise is
cleared.  Returns the updated player and the amount moved. -/
def Player.bet (p : Player) (amount : Int) : Option (Player × Nat) :=
  if amount < 0 then none
  else
    if amount.toNat ≥ p.stack then
      some ({ p with
                stack := 0
                handStatus := .allin
                unresolved := p.unresolved + p.stack
                totalBet := p.totalBet + p.stack
                canRaise := false }, p.stack)
    else
      some ({ p with
                stack := p.stack - amount.toNat
                unresolved := p.unresolved + amount.toNat
                totalBet := p.totalBet + amount.toNat
                canRaise := false }, amount.toNat)

/-! ### Pot ledger (src/engine/hand.py) -/

/-- One pot layer: a ChipStack plus the eligibility list.  Players are
identified by their index in the hand's player list (Python list
membership on Player objects is object identity). -/
structure Pot where
  stack : Nat
  eligible : List Nat
deriving DecidableEq, Repr

instance : Inhabited Pot := ⟨⟨0, []⟩⟩

/-- The state a betting stage works on: the player list, the temporary
collection ChipStack of the stage, and the pot ledger. -/
structure HandState where
  players : List Player
  temp : Nat
  pots : List Pot
deriving DecidableEq, Repr

/-- Seat access (all indexes fed to it are built from List.range, hence
in range; the default is never read). -/
def pAt (ps : List Player) (i : Nat) : Player := ps.getD i default

/-- One bet by seat i during a stage: Player.bet followed by
stack.add of the popped amount onto the collection stack.  Also returns
the amount popped from the player's stack. -/
def betStep (st : HandState) (i : Nat) (amount : Int) : Option (HandState × Nat) :=
  if i < st.players.length then
    (pAt st.players i).bet amount |>.map fun pc =>
      ({ st with players := st.players.set i pc.1, temp := st.temp + pc.2 }, pc.2)
  else none

/-- A sequence of bets into the stage's collection stack; returns the
final state and the total amount popped from the players' stacks. -/
def runBets (st : HandState) : List (Nat × Int) → Option (HandState × Nat)
  | [] => some (st, 0)
  | (i, a) :: rest => do
    let s1 ← betStep st i a
    let s2 ← runBets s1.1 rest
    pure (s2.1, s1.2 + s2.2)

/-- One transfer inside add_to_pots: player i moves
min(pot_increase, unresolved_chips) from the collection stack (which
fails on overdraw) into the last pot, is appended to that pot's
eligibility list when absent, and resolves the amount. -/
def payOne (st : HandState) (inc i : Nat) : Option HandState := do
  let pot ← st.pots.getLast?
  let p := pAt st.players i
  let amount := min inc p.unresolved
  if amount > st.temp then none
  else
    let p2 ← p.resolve amount
    some { players := st.players.set i p2, temp := st.temp - amount,
           pots := st.pots.dropLast ++
             [{ stack := pot.stack + amount,
                eligible := if i ∈ pot.eligible then pot.eligible
                            else pot.eligible ++ [i] }] }

/-- The transfer loop over one all-in layer. -/
def payAll (inc : Nat) : HandState → List Nat → Option HandState
  | st, [] => some st
  | st, i :: rest => do
    let st2 ← payOne st inc i
    payAll inc st2 rest

/-- The all-in layer loop of Hand.add_to_pots.  proc lists the all-in
contributors in the order they are popped (the source sorts descending
by unresolved_chips and pops from the end, so proc is ascending); the
remaining pops are rest, so the source's non_all_iners + all_iners +
[least_committed] iteration order is nonAll ++ rest.reverse ++ [least].
A zero layer asserts that the current pot is empty and opens no new pot;
a nonzero layer transfers the increment from every contributor and then
opens a fresh side pot. -/
def loopAllIn (nonAll : List Nat) : HandState → List Nat → Option HandState
  | st, [] => some st
  | st, least :: rest =>
    if (pAt st.players least).unresolved = 0 then do
      let pot ← st.pots.getLast?
      if pot.stack ≠ 0 then none
      else loopAllIn nonAll st rest
    else do
      let st2 ← payAll (pAt st.players least).unresolved st
        (nonAll ++ rest.reverse ++ [least])
      loopAllIn nonAll { st2 with pots := st2.pots ++ [⟨0, []⟩] } rest

/-- The trailing loop of add_to_pots: each non-all-in contributor moves
its whole remaining unresolved_chips into the current pot. -/
def finalPay : HandState → List Nat → Option HandState
  | st, [] => some st
  | st, i :: rest => do
    let st2 ← payOne st (pAt st.players i).unresolved i
    finalPay st2 rest

/-- Stable insertion for the descending sort by unresolved_chips
(Python list.sort with reverse=True is stable: ties keep their original
relative order). -/
def insertDescBy (key : Nat → Nat) (x : Nat) : List Nat → List Nat
  | [] => [x]
  | y :: ys => if key y > key x then y :: insertDescBy key x ys else x :: y :: ys

/-- Stable descending sort by a key. -/
def sortDescBy (key : Nat → Nat) : List Nat → List Nat
  | [] => []
  | x :: xs => insertDescBy key x (sortDescBy key xs)

/-- The players with nonzero unresolved_chips, in seating order. -/
def contributors (st : HandState) : List Nat :=
  (List.range st.players.length).filter fun i => (pAt st.players i).unresolved ≠ 0

/-- The all-in contributors, in seating order. -/
def allInContributors (st : HandState) : List Nat :=
  (contributors st).filter fun i => (pAt st.players i).handStatus = .allin

/-- The contributors who are not all-in, in seating order. -/
def nonAllInContributors (st : HandState) : List Nat :=
  (contributors st).filter fun i => ¬ (pAt st.players i).handStatus = .allin

/-- Hand.add_to_pots: distributes the stage's temporary collection stack
into the pot ledger, splitting all-in layers smallest first, then drains
the non-all-in contributors into the current pot; the final assert
demands a zero remainder on the collection stack. -/
def add_to_pots (st : HandState) : Option HandState := do
  let nonAll := nonAllInContributors st
  let proc := (sortDescBy (fun i => (pAt st.players i).unresolved)
    (allInContributors st)).reverse
  let st1 ← loopAllIn nonAll st proc
  let st2 ← finalPay st1 nonAll
  if st2.temp ≠ 0 then none else some st2

/-- Sum of unresolved_chips over all seats. -/
def sumUnresolved (st : HandState) : Nat := (st.players.map Player.unresolved).sum

/-- Sum of the players' stack balances. -/
def sumStacks (st : HandState) : Nat := (st.players.map Player.stack).sum

/-- Sum of the pot ledger's balances. -/
def potTotal (st : HandState) : Nat := (st.pots.map Pot.stack).sum

/-- All chips in the system: player stacks, the collection stack and the
pot ledger. -/
def totalChips (st : HandState) : Nat := sumStacks st + st.temp + potTotal st

/-- The state at the start of a stage: the collection stack is freshly
created and Player.stage_start has asserted unresolved_chips == 0. -/
def stageStart (st : HandState) : Prop :=
  st.temp = 0 ∧ ∀ p ∈ st.players, p.unresolved = 0

/-- Pot access by creation order. -/
def potAt (pots : List Pot) (k : Nat) : Pot := pots.getD k default

/-- The pot currently collecting (pot_stacks[-1]). -/
def lastPot (st : HandState) : Pot := st.pots.getLast?.getD default

/-- The ascending list of nonzero layer increments the all-in loop
processes, computed from the current unresolved amounts in pop order: a
zero head is skipped, a nonzero head v funds one layer and reduces every
later commitment by v. -/
def layerIncs : List Nat → List Nat
  | [] => []
  | v :: vs =>
    if v = 0 then layerIncs vs
    else v :: layerIncs (vs.map (fun u => u - v))
termination_by l => l.length
decreasing_by
  all_goals simp_all [List.length_map]

/-- The cumulative funding cap of the stage's r-th all-in pot layer. -/
def layerCap (incs : List Nat) (r : Nat) : Nat := ((incs.take (r + 1)).sum)

/-- The stage's nonzero all-in layer increments, read off the state that
add_to_pots is called on. -/
def stageIncs (st : HandState) : List Nat :=
  layerIncs (((sortDescBy (fun i => (pAt st.players i).unresolved)
    (allInContributors st)).reverse).map fun i => (pAt st.players i).unresolved)

/-- What one all-in layer transfer (payAll inc st order) achieves. -/
structure PayAllOut (inc : Nat) (order : List Nat) (st st2 : HandState) : Prop where
  len : st2.players.length = st.players.length
  plen : st2.pots.length = st.pots.length
  pne : st2.pots ≠ []
  pdrop : st2.pots.dropLast = st.pots.dropLast
  inv : st2.temp = sumUnresolved st2
  cons : st2.temp + potTotal st2 = st.temp + potTotal st
  untouched : ∀ j, ¬ j ∈ order → pAt st2.players j = pAt st.players j
  stackEq : ∀ j, (pAt st2.players j).stack = (pAt st.players j).stack
  statuses : ∀ j, (pAt st2.players j).handStatus = (pAt st.players j).handStatus
  totalBets : ∀ j, (pAt st2.players j).totalBet = (pAt st.players j).totalBet
  canRaises : ∀ j, (pAt st2.players j).canRaise = (pAt st.players j).canRaise
  resolved : ∀ j ∈ order, (pAt st2.players j).unresolved =
    (pAt st.players j).unresolved - min inc (pAt st.players j).unresolved
  elig : ∀ x, x ∈ (lastPot st2).eligible ↔ x ∈ (lastPot st).eligible ∨ x ∈ order

/-- What the trailing non-all-in drain (finalPay st order) achieves. -/
structure FinalOut (order : List Nat) (st st2 : HandState) : Prop where
  len : st2.players.length = st.players.length
  plen : st2.pots.length = st.pots.length
  pne : st2.pots ≠ []
  pdrop : st2.pots.dropLast = st.pots.dropLast
  inv : st2.temp = sumUnresolved st2
  cons : st2.temp + potTotal st2 = st.temp + potTotal st
  untouched : ∀ j, ¬ j ∈ order → pAt st2.players j = pAt st.players j
  stackEq : ∀ j, (pAt st2.players j).stack = (pAt st.players j).stack
  statuses : ∀ j, (pAt st2.players j).handStatus = (pAt st.players j).handStatus
  drained : ∀ j ∈ order, (pAt st2.players j).unresolved = 0
  elig : ∀ x, x ∈ (lastPot st2).eligible ↔ x ∈ (lastPot st).eligible ∨ x ∈ order

/-- What the all-in layer loop (loopAllIn nonAll st proc) achieves; all
layer bookkeeping is expressed against the entry state st. -/
structure LoopOut (nonAll proc : List Nat) (st st2 : HandState) : Prop where
  len : st2.players.length = st.players.length
  pne : st2.pots ≠ []
  inv : st2.temp = sumUnresolved st2
  cons : st2.temp + potTotal st2 = st.temp + potTotal st
  zeroed : ∀ j ∈ proc, (pAt st2.players j).unresolved = 0
  untouched : ∀ j, ¬ j ∈ proc → ¬ j ∈ nonAll → pAt st2.players j = pAt st.players j
  stackEq : ∀ j, (pAt st2.players j).stack = (pAt st.players j).stack
  statuses : ∀ j, (pAt st2.players j).handStatus = (pAt st.players j).handStatus
  plen : st2.pots.length = st.pots.length +
    (layerIncs (proc.map fun j => (pAt st.players j).unresolved)).length
  prefixEq : ∀ k, k < st.pots.length - 1 → potAt st2.pots k = potAt st.pots k
  layerElig : ∀ r, r < (layerIncs (proc.map fun j => (pAt st.players j).unresolved)).length →
    ∀ x, x ∈ (potAt st2.pots (st.pots.length - 1 + r)).eligible ↔
      ((r = 0 ∧ x ∈ (lastPot st).eligible) ∨ x ∈ nonAll ∨
       (x ∈ proc ∧
         layerCap (layerIncs (proc.map fun j => (pAt st.players j).unresolved)) r ≤
           (pAt st.players x).unresolved))
  lastEq : potAt st2.pots (st.pots.length - 1 +
      (layerIncs (proc.map fun j => (pAt st.players j).unresolved)).length) =
    (if (layerIncs (proc.map fun j => (pAt st.players j).unresolved)).length = 0
     then lastPot st else ⟨0, []⟩)

/-- What a successful add_to_pots achieves, expressed against the entry
state. -/
structure AddOut (st stf : HandState) : Prop where
  tempZero : stf.temp = 0
  potSum : potTotal stf = potTotal st + st.temp
  stackEq : ∀ j, (pAt stf.players j).stack = (pAt st.players j).stack
  len : stf.players.length = st.players.length
  chips : totalChips stf = totalChips st
  plen : stf.pots.length = st.pots.length + (stageIncs st).length
  prefixEq : ∀ k, k < st.pots.length - 1 → potAt stf.pots k = potAt st.pots k
  layers : ∀ r, r < (stageIncs st).length → ∀ x,
    (x ∈ (potAt stf.pots (st.pots.length - 1 + r)).eligible ↔
      ((r = 0 ∧ x ∈ (lastPot st).eligible) ∨ x ∈ nonAllInContributors st ∨
       (x ∈ allInContributors st ∧
        layerCap (stageIncs st) r ≤ (pAt st.players x).unresolved)))
  finalElig : ∀ x,
    (x ∈ (potAt stf.pots (st.pots.length - 1 + (stageIncs st).length)).eligible ↔
      (((stageIncs st).length = 0 ∧ x ∈ (lastPot st).eligible) ∨
        x ∈ nonAllInContributors st))

/-- What a sequence of bets (runBets) achieves. -/
structure RunOut (st st2 : HandState) (total : Nat) : Prop where
  len : st2.players.length = st.players.length
  tempEq : st2.temp = st.temp + total
  sumEq : sumUnresolved st2 = sumUnresolved st + total
  potsEq : st2.pots = st.pots
  chips : totalChips st2 = totalChips st

/-! ### Betting round (Hand.betting_round, src/engine/hand.py lines
331-422)

The loop is modelled as a fueled step function.  The agent's decision
sequence is an oracle indexed by the number of decisions taken so far;
the action dictionary is the AgentAction type (invalid covers every
unrecognized action string, which raises InvalidStringError).  The hand
log is write-only and inspected by no claim, so it is not carried. -/

inductive AgentAction where
  | fold
  | matchBet
  | increase (amount : Int)
  | invalid

/-- The state Hand.betting_round works on. -/
structure RoundState where
  players : List Player
  temp : Nat        -- the stage's collection stack
  betToCall : Nat
  minRaise : Nat
  cur : Nat         -- current_player
  retry : Nat       -- retry_count
  decisions : Nat   -- how many agent decisions were consumed so far
deriving Repr

/-- Hand.get_active_players. -/
def activePlayers (ps : List Player) : List Player :=
  ps.filter fun p => p.handStatus = .active

/-- Sum of stack balances over a player list. -/
def sumStacksL (ps : List Player) : Nat := (ps.map Player.stack).sum

/-- Hand.get_max_bet (max over the player list; 0 for the empty list). -/
def getMaxBet (ps : List Player) : Nat :=
  (ps.map Player.unresolved).foldr max 0

/-- The set_raise-on-everyone-else loop of a full raise (Python compares
object identity, i.e. the seat index). -/
def setRaiseOthersAux (i : Nat) : Nat → List Player → List Player
  | _, [] => []
  | j, p :: ps => (if j = i then p else p.set_raise) :: setRaiseOthersAux i (j + 1) ps

def setRaiseOthers (ps : List Player) (i : Nat) : List Player :=
  setRaiseOthersAux i 0 ps

/-- The actable branch of Hand.betting_round for one agent action.
none models the exceptions: InvalidStringError for an unrecognized
action, or a ValueError out of Player.bet. -/
def applyAction (st : RoundState) (i : Nat) (act : AgentAction) : Option RoundState :=
  match act with
  | .fold => some { st with players := st.players.set i (pAt st.players i).fold }
  | .matchBet =>
    ((pAt st.players i).bet ((st.betToCall : Int) - (pAt st.players i).unresolved)).map
      fun pc => { st with players := st.players.set i pc.1, temp := st.temp + pc.2 }
  | .increase amount =>
    -- snapshot of can_raise, then the call portion
    ((pAt st.players i).bet ((st.betToCall : Int) - (pAt st.players i).unresolved)).bind
      fun pc =>
        if (pAt st.players i).canRaise then
          -- the raise portion: max(requested - call cost, min_raise)
          (pc.1.bet (max (amount - pc.2) (st.minRaise : Int))).map fun pc2 =>
            let stMid : RoundState :=
              if pc2.2 ≥ st.minRaise then
                { st with
                    players := (setRaiseOthers st.players i).set i pc2.1
                    temp := st.temp + pc.2 + pc2.2
                    minRaise := pc2.2 }
              else
                { st with
                    players := st.players.set i pc2.1
                    temp := st.temp + pc.2 + pc2.2 }
            { stMid with betToCall := max (getMaxBet stMid.players) st.betToCall }
        else
          some { st with players := st.players.set i pc.1, temp := st.temp + pc.2 }
  | .invalid => none

/-- The actual raise increment an increase action produces: what the
second Player.bet moves (the requested raise clamped by the all-in
rule), following the source's cost / actual_raise data flow. -/
def actualRaise (st : RoundState) (i : Nat) (req : Int) : Nat :=
  match (pAt st.players i).bet ((st.betToCall : Int) - (pAt st.players i).unresolved) with
  | none => 0
  | some pc =>
    match pc.1.bet (max (req - pc.2) (st.minRaise : Int)) with
    | none => 0
    | some pc2 => pc2.2

/-- Hand.betting_round as a fueled loop.  none is fuel exhaustion;
some (Except.error ()) is a raised exception (assert in is_actable,
IndexError, ValueError, InvalidStringError); some (Except.ok st) is the
loop returning. -/
def bettingRound (agent : Nat → AgentAction) : Nat → RoundState → Option (Except Unit RoundState)
  | 0, _ => none
  | fuel + 1, st =>
    if st.retry < st.players.length - 1 then
      if (activePlayers st.players).length = 1 ∧
          ((activePlayers st.players).getD 0 default).unresolved = st.betToCall then
        some (.ok st)
      else if (activePlayers st.players).length = 0 then
        some (.ok st)
      else if st.cur < st.players.length then
        if (pAt st.players st.cur).unresolved ≤ st.betToCall then
          if (pAt st.players st.cur).is_actable st.betToCall then
            match applyAction st st.cur (agent st.decisions) with
            | none => some (.error ())
            | some st2 =>
              let st3 : RoundState :=
                if ¬ (pAt st2.players st.cur).handStatus = .folded then
                  { st2 with retry := 0, decisions := st2.decisions + 1 }
                else
                  { st2 with retry := st2.retry + 1, decisions := st2.decisions + 1 }
              bettingRound agent fuel
                { st3 with cur := if st3.cur + 1 = st3.players.length then 0 else st3.cur + 1 }
          else
            bettingRound agent fuel
              { st with
                  retry := st.retry + 1
                  cur := if st.cur + 1 = st.players.length then 0 else st.cur + 1 }
        else some (.error ())
      else some (.error ())
    else some (.ok st)

/-- Number of active seats, as an indicator sum. -/
def muActive (ps : List Player) : Nat :=
  (ps.map fun p => if p.handStatus = .active then 1 else 0).sum

/-- Number of active seats holding raise rights, as an indicator sum. -/
def muRaise (ps : List Player) : Nat :=
  (ps.map fun p => if p.handStatus = .active ∧ p.canRaise then 1 else 0).sum

/-- The termination measure of the betting round: total player stacks,
then active seats, then active seats with raise rights, then the
remaining retry budget, in lexicographic (base players+1) order. -/
def roundMeasure (st : RoundState) : Nat :=
  ((sumStacksL st.players * (st.players.length + 1) + muActive st.players)
      * (st.players.length + 1) + muRaise st.players)
    * (st.players.length + 1) + (st.players.length - 1 - st.retry)

/-- A strict drop of the player-list part of the termination measure. -/
def measureDrop (ps ps2 : List Player) : Prop :=
  sumStacksL ps2 < sumStacksL ps ∨
  (sumStacksL ps2 = sumStacksL ps ∧ muActive ps2 < muActive ps) ∨
  (sumStacksL ps2 = sumStacksL ps ∧ muActive ps2 = muActive ps ∧
    muRaise ps2 < muRaise ps)

/-! ### Concrete test vectors (the worked example from the spec: stacks
20/9/20/20, bob forced all-in for 9, dave all-in for 20) -/

def tstSt0 : HandState :=
  { players := [⟨20, .active, 0, 0, true⟩, ⟨9, .active, 0, 0, true⟩,
      ⟨20, .active, 0, 0, true⟩, ⟨20, .active, 0, 0, true⟩]
    temp := 0
    pots := [⟨0, []⟩] }

def tstBets : List (Nat × Int) := [(0, 9), (1, 9), (2, 9), (3, 20)]

def tstStMid : HandState :=
  { players := [⟨11, .active, 9, 9, false⟩, ⟨0, .allin, 9, 9, false⟩,
      ⟨11, .active, 9, 9, false⟩, ⟨0, .allin, 20, 20, false⟩]
    temp := 47
    pots := [⟨0, []⟩] }

/-! ### Showdown pot split (Hand.showdown, src/engine/hand.py lines
613-660).  One pot iteration of the while loop over pot_stacks: winners
is the list of players tied at the best score; split_amount =
pot_amount // num_winners is paid to every winner in turn; the
remainder odd_chips = pot_amount % num_winners is then walked one chip
at a time through player_list starting at the small blind's index,
wrapping at the end, paying each winner seat it meets.  Player.gain
adds chips popped from the pot stack to the player's own stack; the
pop raises on overdraw, hence the Option.  Players are reduced to
their chip stacks by seat; winners are a list of (distinct) seat
indices. -/

structure ShowdownSt where
  seats : List Nat
  pot : Nat
deriving Repr, DecidableEq

/-- Player.gain via ChipStack.pop / ChipStack.add: move amount chips
from the pot stack to seat i's stack (none = pop overdraw). -/
def gainOne (s : ShowdownSt) (i : Nat) (amount : Nat) : Option ShowdownSt :=
  if amount ≤ s.pot then
    some ⟨s.seats.set i (s.seats.getD i 0 + amount), s.pot - amount⟩
  else none

/-- The `for winner in winners: winner.gain(pot, split_amount)` loop. -/
def paySplit (split : Nat) : List Nat → ShowdownSt → Option ShowdownSt
  | [], s => some s
  | w :: ws, s =>
    match gainOne s w split with
    | none => none
    | some s2 => paySplit split ws s2

/-- The `while odd_chips:` walk: at each step, if the seat at index is
a winner it gains one chip and odd_chips decrements; index advances
cyclically through the n seats.  Fueled; none = fuel exhausted or
overdraw. -/
def oddLoop (ws : List Nat) (n : Nat) : Nat → Nat → Nat → ShowdownSt → Option ShowdownSt
  | 0, _, _, _ => none
  | fuel + 1, odd, index, s =>
    if odd = 0 then some s
    else
      let index2 := if index + 1 = n then 0 else index + 1
      if index ∈ ws then
        match gainOne s index 1 with
        | none => none
        | some s2 => oddLoop ws n fuel (odd - 1) index2 s2
      else oddLoop ws n fuel odd index2 s

/-- One pot's distribution at showdown: the equal split to every
winner, then the odd-chip walk from the small blind's seat.  Fuel
n + 1 for the walk; the termination theorem shows it is enough. -/
def distributePot (ws : List Nat) (n sbIndex : Nat) (s : ShowdownSt) :
    Option ShowdownSt :=
  let split := s.pot / ws.length
  let odd := s.pot % ws.length
  match paySplit split ws s with
  | none => none
  | some s2 =>
    if 0 < odd then oddLoop ws n (n + 1) odd sbIndex s2
    else some s2

/-- The seats in the order the odd-chip walk visits them, one lap from
the reference seat. -/
def cyclicSeats (n index : Nat) : List Nat :=
  (List.range n).map (fun j => (index + j) % n)

/-- The winners that receive an extra chip: the first odd winners in
seating order starting from the reference seat. -/
def extraSeats (ws : List Nat) (n sbIndex odd : Nat) : List Nat :=
  ((cyclicSeats n sbIndex).filter (fun i => decide (i ∈ ws))).take odd

/-! ### End-of-hand ranking (Hand.hand_ended, src/engine/hand.py lines
223-253, and Player.update_rank, src/engine/player.py lines 78-81).
hand_ended collects the players whose stack is 0, sorts them in
descending order of total_bet_this_hand (list.sort is stable), and
walks them calling player.update_rank(alive_count + 1 + i, hand_id),
copying the previous player's rank on a tie; a lone survivor gets
update_rank(1, hand_id).  Player.update_rank is declared with a single
parameter (def update_rank(self, rank)), so every one of these
two-argument calls raises TypeError at the call site before any rank
is stored.  We model a Python method call by its argument binding:
wrong arity is a TypeError, then the body runs (ValueError on
rank < 1, otherwise the rank is stored). -/

inductive PyError where
  | typeError
  | valueError
  | assertionError
deriving Repr, DecidableEq

structure RankPlayer where
  stack : Nat
  totalBet : Nat
  rank : Option Nat
deriving Repr, DecidableEq

/-- The call player.update_rank(*args) against
def update_rank(self, rank): Python binds the positional arguments to
the one parameter; any other arity raises TypeError before the body,
whose own guard raises ValueError on rank < 1. -/
def callUpdateRank (p : RankPlayer) (args : List Int) :
    Except PyError RankPlayer :=
  match args with
  | [rank] =>
    if rank < 1 then .error .valueError
    else .ok { p with rank := some rank.toNat }
  | _ => .error .typeError

/-- Stable insertion step of eliminated.sort(key=total_bet,
reverse=True). -/
def insertDescRank (x : RankPlayer) : List RankPlayer → List RankPlayer
  | [] => [x]
  | y :: ys =>
    if y.totalBet > x.totalBet then y :: insertDescRank x ys
    else x :: y :: ys

/-- Stable descending sort by total_bet_this_hand. -/
def sortDescRank : List RankPlayer → List RankPlayer
  | [] => []
  | x :: xs => insertDescRank x (sortDescRank xs)

/-- The `for i in range(len(eliminated))` loop of hand_ended: the
two-argument update_rank call, the non-increasing-commitment assert,
and the tie rank copy (another two-argument call). -/
def rankLoop (aliveCount handId : Nat) :
    Nat → List RankPlayer → Option RankPlayer → Except PyError (List RankPlayer)
  | _, [], _ => .ok []
  | i, p :: rest, prev =>
    match callUpdateRank p [(aliveCount + 1 + i : Int), (handId : Int)] with
    | .error e => .error e
    | .ok p1 =>
      match (match prev with
             | none => Except.ok p1
             | some q =>
               if p1.totalBet ≤ q.totalBet then
                 if p1.totalBet = q.totalBet then
                   callUpdateRank p1 [(q.rank.getD 0 : Int), (handId : Int)]
                 else .ok p1
               else .error .assertionError) with
      | .error e => .error e
      | .ok p2 =>
        match rankLoop aliveCount handId (i + 1) rest (some p2) with
        | .error e => .error e
        | .ok rest2 => .ok (p2 :: rest2)

/-- Hand.hand_ended, lines 223-242: the busted players are ranked in
descending order of this hand's commitment, then a lone survivor gets
rank 1.  Returns the ranked eliminated list and the alive list; any
Python exception aborts the whole method (the later check_alive
marking on lines 252-253 is then never reached). -/
def handEnded (ps : List RankPlayer) (handId : Nat) :
    Except PyError (List RankPlayer × List RankPlayer) :=
  if (ps.filter (fun p => ¬ p.stack = 0)).length ≥ 1 then
    match rankLoop (ps.filter (fun p => ¬ p.stack = 0)).length handId 0
        (sortDescRank (ps.filter (fun p => p.stack = 0))) none with
    | .error e => .error e
    | .ok ranked =>
      if (ps.filter (fun p => ¬ p.stack = 0)).length = 1 then
        match ps.filter (fun p => ¬ p.stack = 0) with
        | a :: rest =>
          match callUpdateRank a [(1 : Int), (handId : Int)] with
          | .error e => .error e
          | .ok a2 => .ok (ranked, a2 :: rest)
        | [] => .ok (ranked, [])
      else .ok (ranked, ps.filter (fun p => ¬ p.stack = 0))
  else .error .assertionError

end Poker

namespace Poker

/-! ## Claim theorems: ChipStack, escalators, seed, is_actable -/

/-- Every element of a Python-indexed list is a member. -/
theorem pyListGet_mem {α : Type} {l : List α} {i : Int} {x : α}
    (h : pyListGet l i = some x) : x ∈ l := by
  unfold pyListGet at h
  split at h
  · exact List.getElem?_mem h
  · split at h
    · exact List.getElem?_mem h
    · exact absurd h (by simp)

/-- C7: ChipStack operation contract: add fails exactly on negative
amounts and otherwise increases the balance by the amount; pop fails
exactly on a negative amount (InvalidAmount) or an overdraw
(InsufficientFunds) and otherwise decreases the balance and returns the
amount; a failed operation leaves the balance unchanged; starting from a
non-negative balance no operation produces a negative balance. -/
theorem chipstack_contract (b a : Int) (hb : 0 ≤ b) :
    ((chipAdd b a).isOk = false ↔ a < 0) ∧
    (a < 0 → chipAdd b a = .error .invalidAmount) ∧
    (¬ a < 0 → chipAdd b a = .ok (b + a)) ∧
    ((chipPop b a).isOk = false ↔ (a < 0 ∨ a > b)) ∧
    (a < 0 → chipPop b a = .error .invalidAmount) ∧
    (¬ a < 0 → a > b → chipPop b a = .error .insufficientFunds) ∧
    (¬ (a < 0 ∨ a > b) → chipPop b a = .ok (b - a, a)) ∧
    ((chipAdd b a).isOk = false → chipAddBalance b a = b) ∧
    ((chipPop b a).isOk = false → chipPopBalance b a = b) ∧
    0 ≤ chipAddBalance b a ∧ 0 ≤ chipPopBalance b a := by
  by_cases h1 : a < 0 <;> by_cases h2 : a > b <;>
    simp [chipAdd, chipPop, chipAddBalance, chipPopBalance, h1, h2,
      Except.isOk, Except.toBool] <;> omega

/-- Witness for C7 at balance 5, amount 3. -/
theorem chipstack_contract_witness :
    (0 : Int) ≤ 5 ∧ chipPop 5 3 = .ok (2, 3) := by
  refine ⟨by norm_num, ?_⟩
  have h := chipstack_contract 5 3 (by norm_num)
  have := h.2.2.2.2.2.2.1 (by norm_num)
  simpa using this

/-- Helper: Python indexing succeeds exactly on indexes in
[-len, len). -/
theorem pyListGet_isSome {α : Type} (l : List α) (i : Int)
    (h : -(l.length : Int) ≤ i ∧ i < l.length) :
    ∃ x, pyListGet l i = some x := by
  unfold pyListGet
  rcases le_or_lt 0 i with hi | hi
  · rw [if_pos hi]
    have hlt : i.toNat < l.length := by omega
    exact ⟨l[i.toNat], by simp [List.getElem?_eq_getElem hlt]⟩
  · rw [if_neg (by omega), if_pos (by omega)]
    have hlt : (i + (l.length : Int)).toNat < l.length := by omega
    exact ⟨l[(i + (l.length : Int)).toNat], by simp [List.getElem?_eq_getElem hlt]⟩

/-- Every level of the time-based ladder has sb ≤ bb and ante ≥ 0. -/
theorem nlheLevels_valid : ∀ lvl ∈ nlheLevels, lvl.sb ≤ lvl.bb ∧ 0 ≤ lvl.ante := by
  decide

/-- Every level of the survival ladder has sb ≤ bb and ante ≥ 0. -/
theorem survivalLevels_valid :
    ∀ lvl ∈ survivalLevels, lvl.sb ≤ lvl.bb ∧ 0 ≤ lvl.ante := by
  decide

/-- C9 counterexample: the claim quantifies over every non-negative
(handsPlayed, playersAlive) pair, but the survival ladder built for 2
starting players raises IndexError (none) at the non-negative input
(0, 13): eliminated = 2 - 13 = -11, floor division gives level index -6,
which is outside Python's negative-index range for a 5-element table. -/
theorem blind_schedule_counterexample :
    (0 : Int) ≤ 0 ∧ (0 : Int) ≤ 13 ∧
    survivalGetBlindParameters 2 0 13 = none := by
  exact ⟨le_refl 0, by norm_num, by decide⟩

/-- C9 (amended): for every non-negative input the time-based ladder
returns a level with sb ≤ bb and ante ≥ 0 and clamps to the final level
once 16 · handsPerLevel hands are played; the survival ladder does the
same provided playersAlive ≤ startCount + 10 (beyond that the negative
level index falls outside the table), clamping to the final level once
startCount - playersAlive ≥ 10. -/
theorem blind_schedule_validity (hpl : Nat) (s h a : Int)
    (hhpl : 0 < hpl) (hh : 0 ≤ h) (ha : 0 ≤ a) (hbound : a ≤ s + 10) :
    (∃ lvl, nlheGetBlindParameters hpl h a = some lvl ∧
      lvl.sb ≤ lvl.bb ∧ 0 ≤ lvl.ante) ∧
    (16 * (hpl : Int) ≤ h →
      nlheGetBlindParameters hpl h a = some ⟨5000, 10000, 0, 10000⟩) ∧
    (∃ lvl, survivalGetBlindParameters s h a = some lvl ∧
      lvl.sb ≤ lvl.bb ∧ 0 ≤ lvl.ante) ∧
    (a ≤ s - 10 →
      survivalGetBlindParameters s h a = some ⟨1000, 2000, 0, 2000⟩) := by
  have hlen : nlheLevels.length = 16 := by rfl
  have hslen : survivalLevels.length = 5 := by rfl
  have hne : hpl ≠ 0 := Nat.pos_iff_ne_zero.mp hhpl
  have hsL : -5 ≤ survivalLevelIndex s a := by
    unfold survivalLevelIndex
    rw [Int.fdiv_eq_ediv _ (by norm_num)]
    omega
  refine ⟨?_, ?_, ?_, ?_⟩
  · unfold nlheGetBlindParameters
    rw [if_neg hne]
    set ix : Int := if nlheLevelIndex hpl h ≥ nlheLevels.length
      then (nlheLevels.length : Int) - 1 else (nlheLevelIndex hpl h : Int) with hix
    have hbnd : -((nlheLevels.length : Int)) ≤ ix ∧ ix < nlheLevels.length := by
      rw [hix, hlen]
      constructor <;> split <;> omega
    obtain ⟨x, hx⟩ := pyListGet_isSome nlheLevels ix hbnd
    exact ⟨x, hx, nlheLevels_valid x (pyListGet_mem hx)⟩
  · intro hclamp
    unfold nlheGetBlindParameters
    rw [if_neg hne]
    have hidx : nlheLevelIndex hpl h ≥ nlheLevels.length := by
      unfold nlheLevelIndex
      rw [hlen, if_neg (not_lt.mpr hh), ge_iff_le, Nat.le_div_iff_mul_le hhpl]
      omega
    rw [if_pos hidx, hlen]
    decide
  · unfold survivalGetBlindParameters
    have hbnd : -((survivalLevels.length : Int)) ≤
        (if survivalLevelIndex s a ≥ (survivalLevels.length : Int)
         then (survivalLevels.length : Int) - 1 else survivalLevelIndex s a) ∧
        (if survivalLevelIndex s a ≥ (survivalLevels.length : Int)
         then (survivalLevels.length : Int) - 1 else survivalLevelIndex s a) <
          survivalLevels.length := by
      rw [hslen]
      constructor <;> split <;> omega
    obtain ⟨x, hx⟩ := pyListGet_isSome survivalLevels _ hbnd
    exact ⟨x, hx, survivalLevels_valid x (pyListGet_mem hx)⟩
  · intro hclamp
    unfold survivalGetBlindParameters
    have hidx : survivalLevelIndex s a ≥ (survivalLevels.length : Int) := by
      unfold survivalLevelIndex
      rw [hslen, Int.fdiv_eq_ediv _ (by norm_num)]
      omega
    rw [if_pos hidx, hslen]
    decide

/-- Witness for C9 (amended) at handsPerLevel 10, startCount 4,
input (0, 4). -/
theorem blind_schedule_validity_witness :
    (0 : Nat) < 10 ∧ (0 : Int) ≤ 0 ∧ (0 : Int) ≤ 4 ∧ (4 : Int) ≤ 4 + 10 ∧
    (∃ lvl, nlheGetBlindParameters 10 0 4 = some lvl ∧
      lvl.sb ≤ lvl.bb ∧ 0 ≤ lvl.ante) := by
  refine ⟨by norm_num, by norm_num, by norm_num, by norm_num, ?_⟩
  exact (blind_schedule_validity 10 4 0 4 (by norm_num) (by norm_num)
    (by norm_num) (by norm_num)).1

/-- C10: master seed selection: a nonzero selected seed s yields the
deterministic value natAbs s mod 2^32 (independent of the ambient
generator and below 2^32); a selected seed of 0 falls through to the
ambient random generator, so the result depends on it and the game is not
reproducible from the selection alone. -/
theorem master_seed_selection (s : Int) (a1 a2 : Nat) (hs : s ≠ 0) :
    generate_game_seed (some s) a1 = s.natAbs % 2 ^ 32 ∧
    generate_game_seed (some s) a1 = generate_game_seed (some s) a2 ∧
    generate_game_seed (some s) a1 < 2 ^ 32 ∧
    generate_game_seed (some 0) a1 = a1 ∧
    generate_game_seed none a1 = a1 ∧
    ∃ b1 b2 : Nat, b1 ≠ b2 ∧
      generate_game_seed (some 0) b1 ≠ generate_game_seed (some 0) b2 := by
  refine ⟨by simp [generate_game_seed, hs], by simp [generate_game_seed, hs], ?_,
    by simp [generate_game_seed], by simp [generate_game_seed], 0, 1, by norm_num,
    by simp [generate_game_seed]⟩
  simp only [generate_game_seed, hs, if_neg]
  exact Nat.mod_lt _ (by norm_num)

/-- Witness for C10 at seed -42. -/
theorem master_seed_selection_witness :
    (-42 : Int) ≠ 0 ∧ generate_game_seed (some (-42)) 7 = 42 := by
  refine ⟨by norm_num, ?_⟩
  have h := master_seed_selection (-42) 7 7 (by norm_num)
  rw [h.1]; rfl

/-- C8: is_actable decision cascade: folded or all-in seats are never
actable; an active seat that has not matched the bet is actable; a
matched active seat is actable exactly when its raise right is still
set. -/
theorem is_actable_decision (p : Player) (maxBet : Nat)
    (h : p.unresolved ≤ maxBet) :
    ((p.handStatus = .folded ∨ p.handStatus = .allin) →
        p.is_actable maxBet = false) ∧
    (p.handStatus = .active → p.unresolved ≠ maxBet →
        p.is_actable maxBet = true) ∧
    (p.handStatus = .active → p.unresolved = maxBet → p.canRaise = true →
        p.is_actable maxBet = true) ∧
    (p.handStatus = .active → p.unresolved = maxBet → p.canRaise = false →
        p.is_actable maxBet = false) := by
  unfold Player.is_actable
  rcases p with ⟨stack, status, ur, tb, cr⟩
  refine ⟨?_, ?_, ?_, ?_⟩ <;> cases status <;> simp_all

/-- Witness for C8: a matched active player with raise rights is actable. -/
theorem is_actable_decision_witness :
    (Player.mk 10 .active 4 4 true).unresolved ≤ 4 ∧
    (Player.mk 10 .active 4 4 true).is_actable 4 = true := by
  refine ⟨by norm_num, ?_⟩
  exact (is_actable_decision (Player.mk 10 .active 4 4 true) 4 (by norm_num)).2.2.1
    rfl rfl rfl

/-! ## List bookkeeping lemmas for the pot machinery -/

theorem getD_set_self {α : Type} [Inhabited α] :
    ∀ (l : List α) (i : Nat) (q : α), i < l.length →
      (l.set i q).getD i default = q
  | [], i, q, h => absurd h (by simp)
  | x :: xs, 0, q, _ => rfl
  | x :: xs, i + 1, q, h => by
    simpa using getD_set_self xs i q (by simpa using h)

theorem getD_set_ne {α : Type} [Inhabited α] :
    ∀ (l : List α) (i j : Nat) (q : α), j ≠ i →
      (l.set i q).getD j default = l.getD j default
  | [], _, _, _, _ => by simp
  | x :: xs, 0, 0, q, h => absurd rfl h
  | x :: xs, 0, j + 1, q, h => by simp
  | x :: xs, i + 1, 0, q, h => by simp
  | x :: xs, i + 1, j + 1, q, h => by
    simpa using getD_set_ne xs i j q (fun hh => h (by omega))

theorem sum_map_set {α : Type} [Inhabited α] (f : α → Nat) :
    ∀ (l : List α) (i : Nat) (q : α), i < l.length →
      ((l.set i q).map f).sum + f (l.getD i default) = (l.map f).sum + f q
  | [], i, q, h => absurd h (by simp)
  | x :: xs, 0, q, h => by simp; omega
  | x :: xs, i + 1, q, h => by
    have ih := sum_map_set f xs i q (by simpa using h)
    simp only [List.set, List.map_cons, List.sum_cons, List.getD_cons_succ]
    omega

theorem elem_le_sum_map {α : Type} [Inhabited α] (f : α → Nat) :
    ∀ (l : List α) (i : Nat), i < l.length → f (l.getD i default) ≤ (l.map f).sum
  | [], i, h => absurd h (by simp)
  | x :: xs, 0, _ => by simp
  | x :: xs, i + 1, h => by
    have ih := elem_le_sum_map f xs i (by simpa using h)
    simp only [List.getD_cons_succ, List.map_cons, List.sum_cons]
    omega

theorem sum_map_eq_zero {α : Type} (f : α → Nat) (l : List α)
    (h : ∀ x ∈ l, f x = 0) : (l.map f).sum = 0 := by
  induction l with
  | nil => rfl
  | cons x xs ih =>
    simp only [List.map_cons, List.sum_cons, h x (by simp),
      ih fun y hy => h y (by simp [hy]), Nat.add_zero]

theorem sum_map_eq_of_pointwise {α : Type} [Inhabited α] (f : α → Nat) :
    ∀ (l1 l2 : List α), l1.length = l2.length →
      (∀ i, i < l1.length → f (l1.getD i default) = f (l2.getD i default)) →
      (l1.map f).sum = (l2.map f).sum
  | [], [], _, _ => rfl
  | [], y :: ys, h, _ => by simp at h
  | x :: xs, [], h, _ => by simp at h
  | x :: xs, y :: ys, h, hp => by
    simp only [List.map_cons, List.sum_cons]
    have h0 := hp 0 (by simp)
    simp only [List.getD_cons_zero] at h0
    have ih := sum_map_eq_of_pointwise f xs ys (by simpa using h)
      (fun i hi => by simpa using hp (i + 1) (by simpa using hi))
    omega

/-- Reading below the last index is unaffected by dropLast. -/
theorem getD_dropLast {α : Type} [Inhabited α] (l : List α) (k : Nat)
    (h : k < l.length - 1) : l.dropLast.getD k default = l.getD k default := by
  have h1 : k < l.dropLast.length := by simp [List.length_dropLast]; omega
  have h2 : k < l.length := by omega
  rw [List.getD_eq_getElem _ _ h1, List.getD_eq_getElem _ _ h2]
  exact List.getElem_dropLast l k h1

theorem getD_append_left {α : Type} [Inhabited α] (l1 l2 : List α) (k : Nat)
    (h : k < l1.length) : (l1 ++ l2).getD k default = l1.getD k default := by
  have h2 : k < (l1 ++ l2).length := by simp; omega
  rw [List.getD_eq_getElem _ _ h2, List.getD_eq_getElem _ _ h,
    List.getElem_append_left h]

theorem getD_concat_self {α : Type} [Inhabited α] (l : List α) (x : α) :
    (l ++ [x]).getD l.length default = x := by
  have h2 : l.length < (l ++ [x]).length := by simp
  rw [List.getD_eq_getElem _ _ h2]
  simp

/-- A nonempty list is its dropLast plus its last element. -/
theorem dropLast_append_getLastD {α : Type} [Inhabited α] (l : List α)
    (h : l ≠ []) : l.dropLast ++ [l.getLast?.getD default] = l := by
  rw [List.getLast?_eq_getLast l h]
  exact List.dropLast_append_getLast h

theorem getD_last_eq {α : Type} [Inhabited α] (l : List α) (h : l ≠ []) :
    l.getD (l.length - 1) default = l.getLast?.getD default := by
  have hd : l.dropLast ++ [l.getLast?.getD default] = l := dropLast_append_getLastD l h
  have hlen : l.dropLast.length = l.length - 1 := by simp [List.length_dropLast]
  calc l.getD (l.length - 1) default
      = (l.dropLast ++ [l.getLast?.getD default]).getD l.dropLast.length default := by
        rw [hd, hlen]
    _ = l.getLast?.getD default := getD_concat_self _ _

/-! ## The single transfer payOne -/

/-- Closed form of a successful payOne. -/
theorem payOne_eq (st : HandState) (inc i : Nat)
    (hle : min inc (pAt st.players i).unresolved ≤ st.temp)
    (hpots : st.pots ≠ []) :
    payOne st inc i = some
      { players := st.players.set i { pAt st.players i with
          unresolved := (pAt st.players i).unresolved -
            min inc (pAt st.players i).unresolved }
        temp := st.temp - min inc (pAt st.players i).unresolved
        pots := st.pots.dropLast ++
          [{ stack := (lastPot st).stack + min inc (pAt st.players i).unresolved
             eligible := if i ∈ (lastPot st).eligible then (lastPot st).eligible
                         else (lastPot st).eligible ++ [i] }] } := by
  have hlast : st.pots.getLast? = some (lastPot st) := by
    unfold lastPot
    rw [List.getLast?_eq_getLast st.pots hpots]
    rfl
  unfold payOne Player.resolve
  rw [hlast]
  simp only [if_neg (not_lt.mpr hle),
    if_neg (not_lt.mpr (Nat.min_le_right inc (pAt st.players i).unresolved))]
  rfl

theorem pAt_set_self (ps : List Player) (i : Nat) (q : Player)
    (h : i < ps.length) : pAt (ps.set i q) i = q :=
  getD_set_self ps i q h

theorem pAt_set_ne (ps : List Player) (i j : Nat) (q : Player)
    (h : j ≠ i) : pAt (ps.set i q) j = pAt ps j :=
  getD_set_ne ps i j q h

/-- The element bound used to pay from the collection stack. -/
theorem unresolved_le_sum (st : HandState) (i : Nat)
    (h : i < st.players.length) :
    (pAt st.players i).unresolved ≤ sumUnresolved st :=
  elem_le_sum_map Player.unresolved st.players i h

/-- potTotal splits off the last pot. -/
theorem potTotal_decomp (st : HandState) (h : st.pots ≠ []) :
    potTotal st = (st.pots.dropLast.map Pot.stack).sum + (lastPot st).stack := by
  unfold potTotal lastPot
  conv_lhs => rw [← dropLast_append_getLastD st.pots h]
  simp

/-! ## The layer transfer payAll -/

theorem payAll_spec (inc : Nat) :
    ∀ (order : List Nat) (st : HandState),
      (∀ j ∈ order, j < st.players.length) →
      order.Nodup →
      st.temp = sumUnresolved st →
      st.pots ≠ [] →
      ∃ st2, payAll inc st order = some st2 ∧ PayAllOut inc order st st2
  | [], st, _, _, hinv, hpots =>
    ⟨st, rfl,
      ⟨rfl, rfl, hpots, rfl, hinv, rfl, fun _ _ => rfl, fun _ => rfl, fun _ => rfl,
        fun _ => rfl, fun _ => rfl, fun j hj => absurd hj (List.not_mem_nil j),
        fun x => by simp⟩⟩
  | i :: rest, st, hbound, hnodup, hinv, hpots => by
    have hi : i < st.players.length := hbound i (by simp)
    have hum : min inc (pAt st.players i).unresolved ≤ (pAt st.players i).unresolved :=
      Nat.min_le_right _ _
    have husum : (pAt st.players i).unresolved ≤ sumUnresolved st :=
      unresolved_le_sum st i hi
    have hle : min inc (pAt st.players i).unresolved ≤ st.temp := by omega
    have h1 := payOne_eq st inc i hle hpots
    have hlenpos : 0 < st.pots.length := List.length_pos.mpr hpots
    set u := (pAt st.players i).unresolved with hu
    set m := min inc u with hm
    set p1 : Player := { pAt st.players i with unresolved := u - m } with hp1
    set npot : Pot :=
      { stack := (lastPot st).stack + m
        eligible := if i ∈ (lastPot st).eligible then (lastPot st).eligible
                    else (lastPot st).eligible ++ [i] } with hnpot
    set st1 : HandState :=
      { players := st.players.set i p1, temp := st.temp - m
        pots := st.pots.dropLast ++ [npot] } with hst1
    have hlen1 : st1.players.length = st.players.length := by
      rw [hst1]; simp
    have hAtSelf : pAt st1.players i = p1 := by
      rw [hst1]; exact pAt_set_self st.players i p1 hi
    have hAtNe : ∀ j, j ≠ i → pAt st1.players j = pAt st.players j := by
      intro j hj
      rw [hst1]; exact pAt_set_ne st.players i j p1 hj
    have hsum1 : sumUnresolved st1 + u = sumUnresolved st + (u - m) := by
      have hs := sum_map_set Player.unresolved st.players i p1 hi
      have h2 : (st.players.getD i default).unresolved = u := rfl
      have h3 : p1.unresolved = u - m := rfl
      rw [h2, h3] at hs
      rw [hst1]
      exact hs
    have hinv1 : st1.temp = sumUnresolved st1 := by
      have : st1.temp = st.temp - m := by rw [hst1]
      omega
    have hpne1 : st1.pots ≠ [] := by rw [hst1]; simp
    have hplen1 : st1.pots.length = st.pots.length := by
      rw [hst1]; simp [List.length_dropLast]; omega
    have hpdrop1 : st1.pots.dropLast = st.pots.dropLast := by
      rw [hst1]; simp
    have hpt1 : potTotal st1 = potTotal st + m := by
      have hd := potTotal_decomp st hpots
      have hthis : potTotal st1 = (st.pots.dropLast.map Pot.stack).sum + npot.stack := by
        rw [hst1]
        unfold potTotal
        simp
      have hns : npot.stack = (lastPot st).stack + m := rfl
      rw [hthis, hns, hd]
      omega
    have hcons1 : st1.temp + potTotal st1 = st.temp + potTotal st := by
      have : st1.temp = st.temp - m := by rw [hst1]
      omega
    have hlast1 : lastPot st1 = npot := by
      rw [hst1]
      unfold lastPot
      simp [List.getLast?_concat]
    obtain ⟨hnotmem, hnodup2⟩ := List.nodup_cons.mp hnodup
    obtain ⟨st2, hrun2, out2⟩ := payAll_spec inc rest st1
      (fun j hj => by rw [hlen1]; exact hbound j (by simp [hj]))
      hnodup2 hinv1 hpne1
    refine ⟨st2, ?_, ?_⟩
    · show (payOne st inc i).bind (fun s => payAll inc s rest) = some st2
      rw [h1]
      simpa using hrun2
    · refine ⟨?_, ?_, out2.pne, ?_, out2.inv, ?_, ?_, ?_, ?_, ?_, ?_, ?_, ?_⟩
      · rw [out2.len, hlen1]
      · rw [out2.plen, hplen1]
      · rw [out2.pdrop, hpdrop1]
      · rw [out2.cons, hcons1]
      · intro j hj
        have hji : j ≠ i := fun hh => hj (by simp [hh])
        have hjr : ¬ j ∈ rest := fun hh => hj (by simp [hh])
        rw [out2.untouched j hjr, hAtNe j hji]
      · intro j
        rw [out2.stackEq j]
        by_cases hji : j = i
        · subst hji; rw [hAtSelf, hp1]
        · rw [hAtNe j hji]
      · intro j
        rw [out2.statuses j]
        by_cases hji : j = i
        · subst hji; rw [hAtSelf, hp1]
        · rw [hAtNe j hji]
      · intro j
        rw [out2.totalBets j]
        by_cases hji : j = i
        · subst hji; rw [hAtSelf, hp1]
        · rw [hAtNe j hji]
      · intro j
        rw [out2.canRaises j]
        by_cases hji : j = i
        · subst hji; rw [hAtSelf, hp1]
        · rw [hAtNe j hji]
      · intro j hj
        rcases List.mem_cons.mp hj with hji | hjr
        · subst hji
          rw [out2.untouched j hnotmem, hAtSelf, hp1]
        · have hji : j ≠ i := fun hh => hnotmem (hh ▸ hjr)
          rw [out2.resolved j hjr, hAtNe j hji]
      · intro x
        rw [out2.elig x, hlast1, hnpot]
        by_cases hmem : i ∈ (lastPot st).eligible
        · simp only [if_pos hmem, List.mem_cons]
          constructor
          · rintro (hb | hr)
            · exact Or.inl hb
            · exact Or.inr (Or.inr hr)
          · rintro (hb | hix | hr)
            · exact Or.inl hb
            · exact Or.inl (hix ▸ hmem)
            · exact Or.inr hr
        · simp only [if_neg hmem, List.mem_append, List.mem_singleton, List.mem_cons]
          tauto

/-! ## Layer increment bookkeeping -/

theorem layerIncs_nil : layerIncs [] = [] := by
  rw [layerIncs]

theorem layerIncs_cons_zero (vs : List Nat) : layerIncs (0 :: vs) = layerIncs vs := by
  rw [layerIncs]
  simp

theorem layerIncs_cons_pos (v : Nat) (vs : List Nat) (h : v ≠ 0) :
    layerIncs (v :: vs) = v :: layerIncs (vs.map (fun u => u - v)) := by
  rw [layerIncs]
  simp [h]

theorem layerIncs_pos : ∀ (l : List Nat), ∀ v ∈ layerIncs l, 0 < v
  | [] => by simp [layerIncs_nil]
  | x :: xs => by
    by_cases hx : x = 0
    · subst hx
      rw [layerIncs_cons_zero]
      exact layerIncs_pos xs
    · rw [layerIncs_cons_pos x xs hx]
      intro v hv
      rcases List.mem_cons.mp hv with h | h
      · omega
      · exact layerIncs_pos (xs.map fun u => u - x) v h
termination_by l => l.length
decreasing_by
  all_goals simp_all [List.length_map]

theorem layerCap_cons_zero (v : Nat) (incs : List Nat) :
    layerCap (v :: incs) 0 = v := by
  simp [layerCap]

theorem layerCap_cons_succ (v : Nat) (incs : List Nat) (r : Nat) :
    layerCap (v :: incs) (r + 1) = v + layerCap incs r := by
  simp [layerCap]

theorem layerCap_pos (incs : List Nat) (r : Nat)
    (hpos : ∀ v ∈ incs, 0 < v) (hr : r < incs.length) : 0 < layerCap incs r := by
  cases incs with
  | nil => simp at hr
  | cons v vs =>
    have hv : 0 < v := hpos v (by simp)
    cases r with
    | zero => rw [layerCap_cons_zero]; omega
    | succ r => rw [layerCap_cons_succ]; omega

/-! ## The trailing drain finalPay -/

theorem finalPay_spec :
    ∀ (order : List Nat) (st : HandState),
      (∀ j ∈ order, j < st.players.length) →
      order.Nodup →
      st.temp = sumUnresolved st →
      st.pots ≠ [] →
      ∃ st2, finalPay st order = some st2 ∧ FinalOut order st st2
  | [], st, _, _, hinv, hpots =>
    ⟨st, rfl,
      ⟨rfl, rfl, hpots, rfl, hinv, rfl, fun _ _ => rfl, fun _ => rfl, fun _ => rfl,
        fun j hj => absurd hj (List.not_mem_nil j), fun x => by simp⟩⟩
  | i :: rest, st, hbound, hnodup, hinv, hpots => by
    have hi : i < st.players.length := hbound i (by simp)
    have husum : (pAt st.players i).unresolved ≤ sumUnresolved st :=
      unresolved_le_sum st i hi
    set u := (pAt st.players i).unresolved with hu
    have hmin : min u u = u := Nat.min_self u
    have hle : min u (pAt st.players i).unresolved ≤ st.temp := by
      rw [← hu, hmin]; omega
    have h1 := payOne_eq st u i hle hpots
    rw [← hu, hmin] at h1
    have hlenpos : 0 < st.pots.length := List.length_pos.mpr hpots
    set p1 : Player := { pAt st.players i with unresolved := u - u } with hp1
    set npot : Pot :=
      { stack := (lastPot st).stack + u
        eligible := if i ∈ (lastPot st).eligible then (lastPot st).eligible
                    else (lastPot st).eligible ++ [i] } with hnpot
    set st1 : HandState :=
      { players := st.players.set i p1, temp := st.temp - u
        pots := st.pots.dropLast ++ [npot] } with hst1
    have hlen1 : st1.players.length = st.players.length := by
      rw [hst1]; simp
    have hAtSelf : pAt st1.players i = p1 := by
      rw [hst1]; exact pAt_set_self st.players i p1 hi
    have hAtNe : ∀ j, j ≠ i → pAt st1.players j = pAt st.players j := by
      intro j hj
      rw [hst1]; exact pAt_set_ne st.players i j p1 hj
    have hsum1 : sumUnresolved st1 + u = sumUnresolved st + (u - u) := by
      have hs := sum_map_set Player.unresolved st.players i p1 hi
      have h2 : (st.players.getD i default).unresolved = u := rfl
      have h3 : p1.unresolved = u - u := rfl
      rw [h2, h3] at hs
      rw [hst1]
      exact hs
    have hinv1 : st1.temp = sumUnresolved st1 := by
      have : st1.temp = st.temp - u := by rw [hst1]
      omega
    have hpne1 : st1.pots ≠ [] := by rw [hst1]; simp
    have hplen1 : st1.pots.length = st.pots.length := by
      rw [hst1]; simp [List.length_dropLast]; omega
    have hpdrop1 : st1.pots.dropLast = st.pots.dropLast := by
      rw [hst1]; simp
    have hpt1 : potTotal st1 = potTotal st + u := by
      have hd := potTotal_decomp st hpots
      have hthis : potTotal st1 = (st.pots.dropLast.map Pot.stack).sum + npot.stack := by
        rw [hst1]
        unfold potTotal
        simp
      have hns : npot.stack = (lastPot st).stack + u := rfl
      rw [hthis, hns, hd]
      omega
    have hcons1 : st1.temp + potTotal st1 = st.temp + potTotal st := by
      have : st1.temp = st.temp - u := by rw [hst1]
      omega
    have hlast1 : lastPot st1 = npot := by
      rw [hst1]
      unfold lastPot
      simp [List.getLast?_concat]
    obtain ⟨hnotmem, hnodup2⟩ := List.nodup_cons.mp hnodup
    obtain ⟨st2, hrun2, out2⟩ := finalPay_spec rest st1
      (fun j hj => by rw [hlen1]; exact hbound j (by simp [hj]))
      hnodup2 hinv1 hpne1
    refine ⟨st2, ?_, ?_⟩
    · show (payOne st (pAt st.players i).unresolved i).bind
        (fun s => finalPay s rest) = some st2
      rw [← hu, h1]
      simpa using hrun2
    · refine ⟨?_, ?_, out2.pne, ?_, out2.inv, ?_, ?_, ?_, ?_, ?_, ?_⟩
      · rw [out2.len, hlen1]
      · rw [out2.plen, hplen1]
      · rw [out2.pdrop, hpdrop1]
      · rw [out2.cons, hcons1]
      · intro j hj
        have hji : j ≠ i := fun hh => hj (by simp [hh])
        have hjr : ¬ j ∈ rest := fun hh => hj (by simp [hh])
        rw [out2.untouched j hjr, hAtNe j hji]
      · intro j
        rw [out2.stackEq j]
        by_cases hji : j = i
        · subst hji; rw [hAtSelf, hp1]
        · rw [hAtNe j hji]
      · intro j
        rw [out2.statuses j]
        by_cases hji : j = i
        · subst hji; rw [hAtSelf, hp1]
        · rw [hAtNe j hji]
      · intro j hj
        rcases List.mem_cons.mp hj with hji | hjr
        · subst hji
          rw [out2.untouched j hnotmem, hAtSelf, hp1]
          simp
        · exact out2.drained j hjr
      · intro x
        rw [out2.elig x, hlast1, hnpot]
        by_cases hmem : i ∈ (lastPot st).eligible
        · simp only [if_pos hmem, List.mem_cons]
          constructor
          · rintro (hb | hr)
            · exact Or.inl hb
            · exact Or.inr (Or.inr hr)
          · rintro (hb | hix | hr)
            · exact Or.inl hb
            · exact Or.inl (hix ▸ hmem)
            · exact Or.inr hr
        · simp only [if_neg hmem, List.mem_append, List.mem_singleton, List.mem_cons]
          tauto

/-! ## The all-in layer loop -/

theorem loopAllIn_spec (nonAll : List Nat) :
    ∀ (proc : List Nat) (st : HandState),
      (∀ j ∈ proc, j < st.players.length) →
      (∀ j ∈ nonAll, j < st.players.length) →
      proc.Nodup → nonAll.Nodup →
      (∀ j ∈ proc, ¬ j ∈ nonAll) →
      List.Pairwise (fun a b =>
        (pAt st.players a).unresolved ≤ (pAt st.players b).unresolved) proc →
      (∀ j ∈ proc, (pAt st.players j).unresolved = 0 → (lastPot st).stack = 0) →
      st.temp = sumUnresolved st →
      st.pots ≠ [] →
      ∃ st2, loopAllIn nonAll st proc = some st2 ∧ LoopOut nonAll proc st st2
  | [], st, _, _, _, _, _, _, _, hinv, hpots => by
    refine ⟨st, rfl, ?_⟩
    have hK : layerIncs (([] : List Nat).map fun j => (pAt st.players j).unresolved) = [] := by
      simp [layerIncs_nil]
    refine ⟨rfl, hpots, hinv, rfl, by simp, fun _ _ _ => rfl, fun _ => rfl, fun _ => rfl,
      by rw [hK]; simp, fun k _ => rfl, by rw [hK]; simp, ?_⟩
    rw [hK]
    simp only [List.length_nil, Nat.add_zero, if_pos rfl]
    exact getD_last_eq st.pots hpots
  | least :: rest, st, hbound, hnbound, hnodup, hnnodup, hdisj, hsorted, hzero, hinv, hpots => by
    have hlast : st.pots.getLast? = some (lastPot st) := by
      unfold lastPot
      rw [List.getLast?_eq_getLast st.pots hpots]
      rfl
    obtain ⟨hnotmem, hnodup2⟩ := List.nodup_cons.mp hnodup
    have hsorted2 := (List.pairwise_cons.mp hsorted).2
    have hcurge : ∀ j ∈ rest,
        (pAt st.players least).unresolved ≤ (pAt st.players j).unresolved :=
      (List.pairwise_cons.mp hsorted).1
    have hstep : loopAllIn nonAll st (least :: rest) =
        if (pAt st.players least).unresolved = 0 then
          (st.pots.getLast?.bind fun pot =>
            if pot.stack ≠ 0 then none else loopAllIn nonAll st rest)
        else
          (payAll (pAt st.players least).unresolved st
            (nonAll ++ rest.reverse ++ [least])).bind
            fun s2 => loopAllIn nonAll { s2 with pots := s2.pots ++ [⟨0, []⟩] } rest := rfl
    by_cases hinc0 : (pAt st.players least).unresolved = 0
    · -- zero layer: assert the current pot is empty, then skip
      have hempty : (lastPot st).stack = 0 := hzero least (by simp) hinc0
      obtain ⟨st2, hrun, out⟩ := loopAllIn_spec nonAll rest st
        (fun j hj => hbound j (by simp [hj])) hnbound hnodup2 hnnodup
        (fun j hj => hdisj j (by simp [hj])) hsorted2
        (fun j hj => hzero j (by simp [hj])) hinv hpots
      refine ⟨st2, ?_, ?_⟩
      · rw [hstep, if_pos hinc0, hlast]
        simp only [Option.some_bind, if_neg (by omega : ¬ (lastPot st).stack ≠ 0)]
        exact hrun
      · have hKeq : layerIncs ((least :: rest).map fun j => (pAt st.players j).unresolved)
            = layerIncs (rest.map fun j => (pAt st.players j).unresolved) := by
          simp only [List.map_cons, hinc0]
          exact layerIncs_cons_zero _
        have hcapPos : ∀ r < (layerIncs (rest.map fun j =>
            (pAt st.players j).unresolved)).length,
            0 < layerCap (layerIncs (rest.map fun j => (pAt st.players j).unresolved)) r :=
          fun r hr => layerCap_pos _ r (layerIncs_pos _) hr
        refine ⟨out.len, out.pne, out.inv, out.cons, ?_, ?_, out.stackEq, out.statuses,
          ?_, out.prefixEq, ?_, ?_⟩
        · intro j hj
          rcases List.mem_cons.mp hj with hj | hj
          · subst hj
            rw [out.untouched j hnotmem (hdisj j (by simp))]
            exact hinc0
          · exact out.zeroed j hj
        · intro j hj1 hj2
          exact out.untouched j (fun hh => hj1 (by simp [hh])) hj2
        · rw [hKeq]; exact out.plen
        · intro r hr x
          rw [hKeq] at hr ⊢
          rw [out.layerElig r hr x]
          constructor
          · rintro (hb | hn | ⟨hmem, hcap⟩)
            · exact Or.inl hb
            · exact Or.inr (Or.inl hn)
            · exact Or.inr (Or.inr ⟨by simp [hmem], hcap⟩)
          · rintro (hb | hn | ⟨hmem, hcap⟩)
            · exact Or.inl hb
            · exact Or.inr (Or.inl hn)
            · rcases List.mem_cons.mp hmem with hx | hx
              · subst hx
                rw [hinc0] at hcap
                have := hcapPos r hr
                omega
              · exact Or.inr (Or.inr ⟨hx, hcap⟩)
        · rw [hKeq]; exact out.lastEq
    · -- nonzero layer: transfer the increment from everyone, open a side pot
      set inc := (pAt st.players least).unresolved with hinc
      set order : List Nat := nonAll ++ rest.reverse ++ [least] with horder
      have hordermem : ∀ x, x ∈ order ↔ (x ∈ nonAll ∨ x ∈ rest ∨ x = least) := by
        intro x
        rw [horder]
        simp [List.mem_append, List.mem_reverse, or_assoc]
      have hobound : ∀ j ∈ order, j < st.players.length := by
        intro j hj
        rcases (hordermem j).mp hj with h | h | h
        · exact hnbound j h
        · exact hbound j (by simp [h])
        · subst h; exact hbound j (by simp)
      have honodup : order.Nodup := by
        rw [horder]
        refine List.Nodup.append (List.Nodup.append hnnodup
          (List.nodup_reverse.mpr hnodup2) ?_) (List.nodup_singleton least) ?_
        · intro a ha hb
          exact hdisj a (by simp [List.mem_reverse.mp hb]) ha
        · intro a ha hb
          rw [List.mem_singleton] at hb
          subst hb
          rcases List.mem_append.mp ha with h | h
          · exact hdisj a (by simp) h
          · exact hnotmem (List.mem_reverse.mp h)
      obtain ⟨st1, hrun1, p1⟩ := payAll_spec inc order st hobound honodup hinv hpots
      set st1' : HandState := { st1 with pots := st1.pots ++ [⟨0, []⟩] } with hst1'
      have hresolved : ∀ j ∈ rest,
          (pAt st1.players j).unresolved = (pAt st.players j).unresolved - inc := by
        intro j hj
        have hmin : min inc (pAt st.players j).unresolved = inc :=
          Nat.min_eq_left (hcurge j hj)
        rw [p1.resolved j ((hordermem j).mpr (Or.inr (Or.inl hj))), hmin]
      have hleast0 : (pAt st1.players least).unresolved = 0 := by
        rw [p1.resolved least ((hordermem least).mpr (Or.inr (Or.inr rfl))), ← hinc,
          Nat.min_self]
        omega
      have hp1'players : st1'.players = st1.players := rfl
      have hmapeq : (rest.map fun j => (pAt st1'.players j).unresolved)
          = ((least :: rest).map fun j =>
              (pAt st.players j).unresolved).tail.map (fun u => u - inc) := by
        simp only [List.map_cons, List.tail_cons, List.map_map]
        exact List.map_congr_left fun j hj => by
          show (pAt st1.players j).unresolved = (pAt st.players j).unresolved - inc
          exact hresolved j hj
      have hKsplit : layerIncs ((least :: rest).map fun j => (pAt st.players j).unresolved)
          = inc :: layerIncs (rest.map fun j => (pAt st1'.players j).unresolved) := by
        rw [hmapeq]
        simp only [List.map_cons, List.tail_cons]
        exact layerIncs_cons_pos _ _ hinc0
      have hlen1' : st1'.players.length = st.players.length := by
        rw [hp1'players, p1.len]
      have hinv1' : st1'.temp = sumUnresolved st1' := p1.inv
      have hpne1' : st1'.pots ≠ [] := by rw [hst1']; simp
      have hplen1' : st1'.pots.length = st.pots.length + 1 := by
        rw [hst1']; simp [p1.plen]
      have hlast1' : lastPot st1' = ⟨0, []⟩ := by
        rw [hst1']
        unfold lastPot
        simp [List.getLast?_concat]
      have hpt1' : potTotal st1' = potTotal st1 := by
        rw [hst1']
        unfold potTotal
        simp
      have hsorted1' : List.Pairwise (fun a b =>
          (pAt st1'.players a).unresolved ≤ (pAt st1'.players b).unresolved) rest := by
        refine List.Pairwise.imp_of_mem ?_ hsorted2
        intro a b ha hb hab
        rw [hp1'players, hresolved a ha, hresolved b hb]
        omega
      obtain ⟨st2, hrun2, out2⟩ := loopAllIn_spec nonAll rest st1'
        (fun j hj => by rw [hlen1']; exact hbound j (by simp [hj]))
        (fun j hj => by rw [hlen1']; exact hnbound j hj)
        hnodup2 hnnodup (fun j hj => hdisj j (by simp [hj])) hsorted1'
        (fun j hj hz => by rw [hlast1']) hinv1' hpne1'
      refine ⟨st2, ?_, ?_⟩
      · rw [hstep, if_neg hinc0, hrun1]
        simp only [Option.some_bind]
        rw [← hst1']
        exact hrun2
      · have hLpos : 0 < st.pots.length := List.length_pos.mpr hpots
        have hcap0 : layerCap (layerIncs ((least :: rest).map fun j =>
            (pAt st.players j).unresolved)) 0 = inc := by
          rw [hKsplit]
          exact layerCap_cons_zero _ _
        have hincsPos := layerIncs_pos (rest.map fun j => (pAt st1'.players j).unresolved)
        refine ⟨?_, out2.pne, out2.inv, ?_, ?_, ?_, ?_, ?_, ?_, ?_, ?_, ?_⟩
        · rw [out2.len, hlen1']
        · have htemp : st1'.temp = st1.temp := rfl
          rw [out2.cons, hpt1', htemp, p1.cons]
        · intro j hj
          rcases List.mem_cons.mp hj with hj | hj
          · subst hj
            rw [out2.untouched j hnotmem (hdisj j (by simp)), hp1'players]
            exact hleast0
          · exact out2.zeroed j hj
        · intro j hj1 hj2
          have hjo : ¬ j ∈ order := by
            rw [hordermem j]
            push_neg
            exact ⟨hj2, fun hh => hj1 (by simp [hh]), fun hh => hj1 (by simp [hh])⟩
          rw [out2.untouched j (fun hh => hj1 (by simp [hh])) hj2, hp1'players,
            p1.untouched j hjo]
        · intro j
          rw [out2.stackEq j, hp1'players, p1.stackEq j]
        · intro j
          rw [out2.statuses j, hp1'players, p1.statuses j]
        · rw [hKsplit]
          rw [out2.plen, hplen1']
          simp only [List.length_cons]
          omega
        · intro k hk
          have hk1 : k < st1'.pots.length - 1 := by omega
          have hk2 : k < st1.pots.length := by rw [p1.plen]; omega
          have hk3 : k < st1.pots.dropLast.length := by
            rw [List.length_dropLast, p1.plen]; omega
          calc potAt st2.pots k
              = potAt st1'.pots k := out2.prefixEq k hk1
            _ = st1.pots.getD k default := by
                rw [hst1']
                exact getD_append_left st1.pots _ k hk2
            _ = st1.pots.dropLast.getD k default := by
                conv_lhs => rw [← dropLast_append_getLastD st1.pots p1.pne]
                exact getD_append_left st1.pots.dropLast _ k hk3
            _ = st.pots.dropLast.getD k default := by rw [p1.pdrop]
            _ = potAt st.pots k := getD_dropLast st.pots k hk
        · intro r hr x
          rw [hKsplit] at hr
          rw [hKsplit]
          cases r with
          | zero =>
            simp only [Nat.add_zero]
            have hidx : st.pots.length - 1 < st1'.pots.length - 1 := by omega
            have hpeq : potAt st2.pots (st.pots.length - 1) = lastPot st1 := by
              have hk2 : st.pots.length - 1 < st1.pots.length := by
                rw [p1.plen]; omega
              calc potAt st2.pots (st.pots.length - 1)
                  = potAt st1'.pots (st.pots.length - 1) := out2.prefixEq _ hidx
                _ = st1.pots.getD (st.pots.length - 1) default := by
                    rw [hst1']
                    exact getD_append_left st1.pots _ _ hk2
                _ = st1.pots.getD (st1.pots.length - 1) default := by rw [p1.plen]
                _ = lastPot st1 := getD_last_eq st1.pots p1.pne
            rw [hpeq, layerCap_cons_zero, p1.elig x, hordermem x]
            constructor
            · rintro (hb | hn | hrst | hlst)
              · exact Or.inl ⟨by trivial, hb⟩
              · exact Or.inr (Or.inl hn)
              · exact Or.inr (Or.inr ⟨by simp [hrst], hcurge x hrst⟩)
              · subst hlst
                exact Or.inr (Or.inr ⟨by simp, hinc.le⟩)
            · rintro (⟨_, hb⟩ | hn | ⟨hmem, _⟩)
              · exact Or.inl hb
              · exact Or.inr (Or.inl hn)
              · rcases List.mem_cons.mp hmem with hx | hx
                · exact Or.inr (Or.inr (Or.inr hx))
                · exact Or.inr (Or.inr (Or.inl hx))
          | succ r =>
            have hr2 : r < (layerIncs (rest.map fun j =>
                (pAt st1'.players j).unresolved)).length := by
              rw [List.length_cons] at hr
              omega
            have hidxeq : st.pots.length - 1 + (r + 1) = st1'.pots.length - 1 + r := by
              omega
            rw [hidxeq, out2.layerElig r hr2 x, hlast1']
            rw [layerCap_cons_succ]
            constructor
            · rintro (⟨_, hb⟩ | hn | ⟨hmem, hcap⟩)
              · exact absurd hb (List.not_mem_nil x)
              · exact Or.inr (Or.inl hn)
              · have hge := hcurge x hmem
                rw [hresolved x hmem] at hcap
                exact Or.inr (Or.inr ⟨by simp [hmem], by omega⟩)
            · rintro (⟨h0, _⟩ | hn | ⟨hmem, hcap⟩)
              · exact absurd h0 (Nat.succ_ne_zero r)
              · exact Or.inr (Or.inl hn)
              · have hcappos : 0 < layerCap (layerIncs (rest.map fun j =>
                    (pAt st1'.players j).unresolved)) r :=
                  layerCap_pos _ r hincsPos hr2
                rcases List.mem_cons.mp hmem with hx | hx
                · subst hx
                  rw [← hinc] at hcap
                  omega
                · have hge := hcurge x hx
                  refine Or.inr (Or.inr ⟨hx, ?_⟩)
                  rw [hresolved x hx]
                  omega
        · rw [hKsplit]
          have hp1plen := p1.plen
          have hidxeq : st.pots.length - 1 +
              (inc :: layerIncs (rest.map fun j =>
                (pAt st1'.players j).unresolved)).length =
              st1'.pots.length - 1 + (layerIncs (rest.map fun j =>
                (pAt st1'.players j).unresolved)).length := by
            rw [List.length_cons, hplen1']
            omega
          rw [hidxeq, out2.lastEq, hlast1']
          have hne0 : (inc :: layerIncs (rest.map fun j =>
              (pAt st1'.players j).unresolved)).length ≠ 0 := by simp
          rw [ite_self, if_neg hne0]

/-! ## The stable descending sort -/

theorem insertDescBy_perm (key : Nat → Nat) (x : Nat) :
    ∀ l : List Nat, List.Perm (insertDescBy key x l) (x :: l)
  | [] => List.Perm.refl _
  | y :: ys => by
    rw [insertDescBy]
    split
    · exact (((insertDescBy_perm key x ys).cons y)).trans (List.Perm.swap x y ys)
    · exact List.Perm.refl _

theorem sortDescBy_perm (key : Nat → Nat) :
    ∀ l : List Nat, List.Perm (sortDescBy key l) l
  | [] => List.Perm.refl _
  | x :: xs => (insertDescBy_perm key x (sortDescBy key xs)).trans
      ((sortDescBy_perm key xs).cons x)

theorem insertDescBy_sorted (key : Nat → Nat) (x : Nat) :
    ∀ l : List Nat, List.Pairwise (fun a b => key b ≤ key a) l →
      List.Pairwise (fun a b => key b ≤ key a) (insertDescBy key x l)
  | [], _ => by simp [insertDescBy]
  | y :: ys, h => by
    rw [insertDescBy]
    obtain ⟨hy, hys⟩ := List.pairwise_cons.mp h
    split
    · rename_i hgt
      refine List.pairwise_cons.mpr ⟨?_, insertDescBy_sorted key x ys hys⟩
      intro b hb
      rcases List.mem_cons.mp ((insertDescBy_perm key x ys).mem_iff.mp hb) with hbx | hbys
      · subst hbx; omega
      · exact hy b hbys
    · rename_i hle
      refine List.pairwise_cons.mpr ⟨?_, h⟩
      intro b hb
      rcases List.mem_cons.mp hb with hby | hbys
      · subst hby; omega
      · have := hy b hbys; omega

theorem sortDescBy_sorted (key : Nat → Nat) :
    ∀ l : List Nat, List.Pairwise (fun a b => key b ≤ key a) (sortDescBy key l)
  | [] => List.Pairwise.nil
  | x :: xs => insertDescBy_sorted key x _ (sortDescBy_sorted key xs)

/-! ## Contributor lists -/

theorem mem_contributors (st : HandState) (j : Nat) :
    j ∈ contributors st ↔
      j < st.players.length ∧ (pAt st.players j).unresolved ≠ 0 := by
  unfold contributors
  simp [List.mem_filter, List.mem_range]

theorem mem_allInContributors (st : HandState) (j : Nat) :
    j ∈ allInContributors st ↔
      j < st.players.length ∧ (pAt st.players j).unresolved ≠ 0 ∧
      (pAt st.players j).handStatus = .allin := by
  unfold allInContributors
  rw [List.mem_filter]
  simp only [mem_contributors, decide_eq_true_eq]
  tauto

theorem mem_nonAllInContributors (st : HandState) (j : Nat) :
    j ∈ nonAllInContributors st ↔
      j < st.players.length ∧ (pAt st.players j).unresolved ≠ 0 ∧
      ¬ (pAt st.players j).handStatus = .allin := by
  unfold nonAllInContributors
  rw [List.mem_filter]
  simp only [mem_contributors, decide_eq_true_eq]
  tauto

theorem contributors_nodup (st : HandState) : (contributors st).Nodup :=
  (List.nodup_range _).filter _

theorem allInContributors_nodup (st : HandState) : (allInContributors st).Nodup :=
  (contributors_nodup st).filter _

theorem nonAllInContributors_nodup (st : HandState) :
    (nonAllInContributors st).Nodup :=
  (contributors_nodup st).filter _

/-! ## The whole distribution add_to_pots -/

theorem add_to_pots_spec (st : HandState)
    (hinv : st.temp = sumUnresolved st) (hpots : st.pots ≠ []) :
    ∃ stf, add_to_pots st = some stf ∧ AddOut st stf := by
  classical
  set key : Nat → Nat := fun i => (pAt st.players i).unresolved with hkey
  set nonAll := nonAllInContributors st with hnonAll
  set proc := (sortDescBy key (allInContributors st)).reverse with hproc
  have hprocmem : ∀ j, j ∈ proc ↔ j ∈ allInContributors st := by
    intro j
    rw [hproc, List.mem_reverse]
    exact (sortDescBy_perm key (allInContributors st)).mem_iff
  have hprocbound : ∀ j ∈ proc, j < st.players.length := fun j hj =>
    ((mem_allInContributors st j).mp ((hprocmem j).mp hj)).1
  have hnonbound : ∀ j ∈ nonAll, j < st.players.length := fun j hj =>
    ((mem_nonAllInContributors st j).mp hj).1
  have hprocnodup : proc.Nodup := by
    rw [hproc]
    exact List.nodup_reverse.mpr
      (((sortDescBy_perm key (allInContributors st)).nodup_iff).mpr
        (allInContributors_nodup st))
  have hnodupnon : nonAll.Nodup := nonAllInContributors_nodup st
  have hdisj : ∀ j ∈ proc, ¬ j ∈ nonAll := by
    intro j hj hn
    have h1 := (mem_allInContributors st j).mp ((hprocmem j).mp hj)
    have h2 := (mem_nonAllInContributors st j).mp hn
    exact h2.2.2 h1.2.2
  have hsorted : List.Pairwise (fun a b =>
      (pAt st.players a).unresolved ≤ (pAt st.players b).unresolved) proc := by
    rw [hproc]
    rw [List.pairwise_reverse]
    exact sortDescBy_sorted key (allInContributors st)
  have hzero : ∀ j ∈ proc, (pAt st.players j).unresolved = 0 →
      (lastPot st).stack = 0 := by
    intro j hj hz
    exact absurd hz ((mem_allInContributors st j).mp ((hprocmem j).mp hj)).2.1
  obtain ⟨st1, hrun1, out1⟩ := loopAllIn_spec nonAll proc st hprocbound hnonbound
    hprocnodup hnodupnon hdisj hsorted hzero hinv hpots
  obtain ⟨stf, hrun2, out2⟩ := finalPay_spec nonAll st1
    (fun j hj => by rw [out1.len]; exact hnonbound j hj)
    hnodupnon out1.inv out1.pne
  have hK : stageIncs st = layerIncs (proc.map fun j => (pAt st.players j).unresolved) := by
    rw [stageIncs, hproc, hkey]
  have hallzero : ∀ j, j < stf.players.length → (pAt stf.players j).unresolved = 0 := by
    intro j hj
    by_cases hjn : j ∈ nonAll
    · exact out2.drained j hjn
    · by_cases hjp : j ∈ proc
      · rw [out2.untouched j hjn]
        exact out1.zeroed j hjp
      · rw [out2.untouched j hjn, out1.untouched j hjp hjn]
        by_contra hne
        have : j ∈ contributors st := (mem_contributors st j).mpr
          ⟨by rw [← out1.len, ← out2.len]; exact hj, hne⟩
        have hjst : (pAt st.players j).handStatus = .allin ∨
            ¬ (pAt st.players j).handStatus = .allin := em _
        rcases hjst with hst | hst
        · exact hjp ((hprocmem j).mpr ((mem_allInContributors st j).mpr
            ⟨by rw [← out1.len, ← out2.len]; exact hj, hne, hst⟩))
        · exact hjn ((mem_nonAllInContributors st j).mpr
            ⟨by rw [← out1.len, ← out2.len]; exact hj, hne, hst⟩)
  have hsumzero : sumUnresolved stf = 0 := by
    unfold sumUnresolved
    refine sum_map_eq_zero _ _ ?_
    intro p hp
    obtain ⟨i, hilt, hieq⟩ := List.mem_iff_getElem.mp hp
    have : pAt stf.players i = p := by
      rw [pAt, List.getD_eq_getElem stf.players default hilt, hieq]
    rw [← this]
    exact hallzero i hilt
  have htempzero : stf.temp = 0 := by rw [out2.inv, hsumzero]
  have hchain : stf.temp + potTotal stf = st.temp + potTotal st := by
    rw [out2.cons, out1.cons]
  refine ⟨stf, ?_, ?_⟩
  · show (loopAllIn nonAll st proc).bind
      (fun s1 => (finalPay s1 nonAll).bind
        (fun s2 => if s2.temp ≠ 0 then none else some s2)) = some stf
    rw [hrun1]
    simp only [Option.some_bind]
    rw [hrun2]
    simp only [Option.some_bind, htempzero]
    simp
  · have hplenf : stf.pots.length = st.pots.length + (stageIncs st).length := by
      rw [out2.plen, out1.plen, hK]
    refine ⟨htempzero, by omega, ?_, ?_, ?_, hplenf, ?_, ?_, ?_⟩
    · intro j
      rw [out2.stackEq j, out1.stackEq j]
    · rw [out2.len, out1.len]
    · unfold totalChips
      have hstacks : sumStacks stf = sumStacks st := by
        unfold sumStacks
        have hlenf : stf.players.length = st.players.length := by
          rw [out2.len, out1.len]
        refine sum_map_eq_of_pointwise Player.stack stf.players st.players hlenf ?_
        intro i _
        show (pAt stf.players i).stack = (pAt st.players i).stack
        rw [out2.stackEq i, out1.stackEq i]
      omega
    · intro k hk
      have hk1 : k < st1.pots.length - 1 := by
        have := out1.plen
        have hKlen : 0 ≤ (layerIncs (proc.map fun j =>
          (pAt st.players j).unresolved)).length := Nat.zero_le _
        omega
      calc potAt stf.pots k
          = st1.pots.dropLast.getD k default := by
            conv_rhs => rw [← out2.pdrop]
            conv_lhs => rw [← dropLast_append_getLastD stf.pots out2.pne]
            refine getD_append_left _ _ k ?_
            rw [List.length_dropLast, out2.plen]
            omega
        _ = st1.pots.getD k default := getD_dropLast st1.pots k hk1
        _ = potAt st.pots k := out1.prefixEq k (by omega)
    · intro r hr x
      rw [hK] at hr
      have hidx : st.pots.length - 1 + r < st1.pots.length - 1 := by
        have := out1.plen
        have hLpos : 0 < st.pots.length := List.length_pos.mpr hpots
        omega
      have hstep : potAt stf.pots (st.pots.length - 1 + r) =
          potAt st1.pots (st.pots.length - 1 + r) := by
        conv_rhs => rw [← dropLast_append_getLastD st1.pots out1.pne, ← out2.pdrop]
        conv_lhs => rw [← dropLast_append_getLastD stf.pots out2.pne]
        have hlt : st.pots.length - 1 + r < stf.pots.dropLast.length := by
          rw [List.length_dropLast, out2.plen]
          omega
        rw [potAt, potAt, getD_append_left _ _ _ hlt]
        rw [show stf.pots.dropLast = st1.pots.dropLast from out2.pdrop] at hlt ⊢
        rw [getD_append_left _ _ _ hlt]
      rw [hstep, out1.layerElig r hr x, hK]
      constructor
      · rintro (hb | hn | ⟨hp, hc⟩)
        · exact Or.inl hb
        · exact Or.inr (Or.inl hn)
        · exact Or.inr (Or.inr ⟨(hprocmem x).mp hp, hc⟩)
      · rintro (hb | hn | ⟨hp, hc⟩)
        · exact Or.inl hb
        · exact Or.inr (Or.inl hn)
        · exact Or.inr (Or.inr ⟨(hprocmem x).mpr hp, hc⟩)
    · intro x
      have hlastf : potAt stf.pots (st.pots.length - 1 + (stageIncs st).length) =
          lastPot stf := by
        have hidx : st.pots.length - 1 + (stageIncs st).length =
            stf.pots.length - 1 := by
          have hLpos : 0 < st.pots.length := List.length_pos.mpr hpots
          omega
        rw [hidx, potAt, getD_last_eq stf.pots out2.pne]
        rfl
      rw [hlastf, out2.elig x]
      have hl1 : lastPot st1 = potAt st1.pots (st.pots.length - 1 + (stageIncs st).length) := by
        have hidx : st.pots.length - 1 + (stageIncs st).length =
            st1.pots.length - 1 := by
          have hLpos : 0 < st.pots.length := List.length_pos.mpr hpots
          have := out1.plen
          rw [hK]
          omega
        rw [hidx, potAt, getD_last_eq st1.pots out1.pne]
        rfl
      rw [hl1, hK]
      rw [out1.lastEq]
      constructor
      · rintro (hmem | hn)
        · split at hmem
          · rename_i hK0
            exact Or.inl ⟨hK0, hmem⟩
          · exact absurd hmem (List.not_mem_nil x)
        · exact Or.inr hn
      · rintro (⟨hK0, hmem⟩ | hn)
        · exact Or.inl (by rw [if_pos hK0]; exact hmem)
        · exact Or.inr hn

/-! ## Bet sequences -/

theorem bet_spec (p : Player) (a : Int) (p2 : Player) (c : Nat)
    (h : p.bet a = some (p2, c)) :
    c ≤ p.stack ∧ p2.stack + c = p.stack ∧ p2.unresolved = p.unresolved + c := by
  unfold Player.bet at h
  split at h
  · exact absurd h (by simp)
  · split at h
    · rw [Option.some.injEq, Prod.mk.injEq] at h
      obtain ⟨hp, hc⟩ := h
      subst hp
      subst hc
      refine ⟨le_refl _, by simp, rfl⟩
    · rename_i hlt
      rw [Option.some.injEq, Prod.mk.injEq] at h
      obtain ⟨hp, hc⟩ := h
      subst hp
      subst hc
      refine ⟨by omega, ?_, rfl⟩
      show p.stack - a.toNat + a.toNat = p.stack
      omega

theorem runBets_spec :
    ∀ (bets : List (Nat × Int)) (st st2 : HandState) (total : Nat),
      runBets st bets = some (st2, total) → RunOut st st2 total
  | [], st, st2, total, h => by
    rw [runBets, Option.some.injEq, Prod.mk.injEq] at h
    obtain ⟨h1, h2⟩ := h
    subst h1
    subst h2
    exact ⟨rfl, by omega, by omega, rfl, rfl⟩
  | (i, a) :: rest, st, st2, total, h => by
    rw [show runBets st ((i, a) :: rest) =
      (betStep st i a).bind fun s1 =>
        (runBets s1.1 rest).bind fun s2 => some (s2.1, s1.2 + s2.2) from rfl] at h
    cases hb : betStep st i a with
    | none => rw [hb] at h; exact absurd h (by simp)
    | some s1 =>
      rw [hb] at h
      simp only [Option.some_bind] at h
      cases hr : runBets s1.1 rest with
      | none => rw [hr] at h; exact absurd h (by simp)
      | some s2 =>
        rw [hr] at h
        simp only [Option.some_bind, Option.some.injEq, Prod.mk.injEq] at h
        obtain ⟨h1, h2⟩ := h
        subst h1
        subst h2
        have out2 := runBets_spec rest s1.1 s2.1 s2.2 hr
        -- analyse the single bet step
        unfold betStep at hb
        split at hb
        · rename_i hilt
          cases hbet : (pAt st.players i).bet a with
          | none => rw [hbet] at hb; exact absurd hb (by simp)
          | some pc =>
            rw [hbet] at hb
            simp only [Option.map_some', Option.some.injEq] at hb
            obtain ⟨p2, c⟩ := pc
            have hfacts := bet_spec (pAt st.players i) a p2 c hbet
            have hs1 : s1 = ({ st with
                players := st.players.set i p2
                temp := st.temp + c }, c) := hb.symm
            have hs1st : s1.1 = { st with
                players := st.players.set i p2
                temp := st.temp + c } := by rw [hs1]
            have hs1c : s1.2 = c := by rw [hs1]
            have hlenA : s1.1.players.length = st.players.length := by
              rw [hs1st]; simp
            have hsumA : sumUnresolved s1.1 = sumUnresolved st + c := by
              rw [hs1st]
              have hs := sum_map_set Player.unresolved st.players i p2 hilt
              have h2 : (st.players.getD i default).unresolved =
                (pAt st.players i).unresolved := rfl
              rw [h2, hfacts.2.2] at hs
              show ((st.players.set i p2).map Player.unresolved).sum =
                (st.players.map Player.unresolved).sum + c
              omega
            have hstackA : sumStacks s1.1 + c = sumStacks st := by
              rw [hs1st]
              have hs := sum_map_set Player.stack st.players i p2 hilt
              have h2 : (st.players.getD i default).stack =
                (pAt st.players i).stack := rfl
              rw [h2] at hs
              show ((st.players.set i p2).map Player.stack).sum + c =
                (st.players.map Player.stack).sum
              have hb2 := hfacts.2.1
              have hele : (pAt st.players i).stack ≤
                  (st.players.map Player.stack).sum :=
                elem_le_sum_map Player.stack st.players i hilt
              omega
            have htempA : s1.1.temp = st.temp + c := by rw [hs1st]
            have hpotsA : s1.1.pots = st.pots := by rw [hs1st]
            have hchipsA : totalChips s1.1 = totalChips st := by
              unfold totalChips potTotal
              rw [hpotsA, htempA]
              omega
            refine ⟨by rw [out2.len, hlenA], ?_, ?_, by rw [out2.potsEq, hpotsA],
              by rw [out2.chips, hchipsA]⟩
            · rw [out2.tempEq, htempA, hs1c]; omega
            · rw [out2.sumEq, hsumA, hs1c]; omega
        · exact absurd hb (by simp)

/-- C1: chip conservation within a stage: starting from a stage-start
state (fresh collection stack, all unresolved_chips zero), any sequence
of Player.bet calls followed by Hand.add_to_pots succeeds, the amount
added to the pot ledger equals the total amount popped from the players'
stacks, the temporary collection stack ends at exactly 0, and the total
number of chips in the system (stacks + collection stack + pots) is
unchanged. -/
theorem chip_conservation (st0 : HandState) (bets : List (Nat × Int))
    (h0 : stageStart st0) (hpots : st0.pots ≠ [])
    (st : HandState) (total : Nat)
    (hrun : runBets st0 bets = some (st, total)) :
    ∃ stf, add_to_pots st = some stf ∧ stf.temp = 0 ∧
      potTotal stf = potTotal st0 + total ∧
      totalChips stf = totalChips st0 := by
  obtain ⟨htemp0, hunres0⟩ := h0
  have out := runBets_spec bets st0 st total hrun
  have hsum0 : sumUnresolved st0 = 0 := by
    unfold sumUnresolved
    exact sum_map_eq_zero _ _ hunres0
  have hinv : st.temp = sumUnresolved st := by
    rw [out.tempEq, out.sumEq, htemp0, hsum0]
  have hpotsst : st.pots ≠ [] := by rw [out.potsEq]; exact hpots
  obtain ⟨stf, hadd, aout⟩ := add_to_pots_spec st hinv hpotsst
  refine ⟨stf, hadd, aout.tempZero, ?_, by rw [aout.chips, out.chips]⟩
  have hpt : potTotal st = potTotal st0 := by
    unfold potTotal
    rw [out.potsEq]
  rw [aout.potSum, hpt, out.tempEq, htemp0]
  omega

/-- Witness for C1: the spec's worked example, stacks 20/9/20/20 with
bob all-in for 9 and dave all-in for 20; 47 chips are collected and 47
chips land in the pots. -/
theorem chip_conservation_witness :
    stageStart tstSt0 ∧ tstSt0.pots ≠ [] ∧
    runBets tstSt0 tstBets = some (tstStMid, 47) ∧
    ∃ stf, add_to_pots tstStMid = some stf ∧ stf.temp = 0 ∧
      potTotal stf = potTotal tstSt0 + 47 ∧
      totalChips stf = totalChips tstSt0 := by
  have hrun : runBets tstSt0 tstBets = some (tstStMid, 47) := by decide
  refine ⟨⟨by decide, by decide⟩, by decide, hrun, ?_⟩
  exact chip_conservation tstSt0 tstBets ⟨by decide, by decide⟩ (by decide)
    tstStMid 47 hrun

/-! ## Side-pot eligibility -/

/-- The first nonzero layer increment is at most any nonzero commitment
in the (ascending) commitment list. -/
theorem layerIncs_head_le (c : Nat) :
    ∀ vals : List Nat, List.Pairwise (fun a b => a ≤ b) vals → c ∈ vals → c ≠ 0 →
      ∃ v rest, layerIncs vals = v :: rest ∧ v ≤ c
  | [], _, hc, _ => absurd hc (List.not_mem_nil c)
  | x :: xs, hs, hc, hc0 => by
    by_cases hx : x = 0
    · subst hx
      rw [layerIncs_cons_zero]
      rcases List.mem_cons.mp hc with h | h
      · exact absurd h hc0
      · exact layerIncs_head_le c xs (List.pairwise_cons.mp hs).2 h hc0
    · rw [layerIncs_cons_pos x xs hx]
      refine ⟨x, _, rfl, ?_⟩
      rcases List.mem_cons.mp hc with h | h
      · omega
      · exact (List.pairwise_cons.mp hs).1 c h

/-- C2: side-pot eligibility: if player q is all-in with a nonzero stage
commitment c when add_to_pots distributes the stage, then q is a member
of the eligibility set of every all-in pot layer of this stage whose
cumulative funding cap is at most c, is a member of no layer whose cap
exceeds c, and is not a member of the stage's final (non-all-in
leftover) pot. -/
theorem side_pot_eligibility (st : HandState)
    (hinv : st.temp = sumUnresolved st) (hpots : st.pots ≠ [])
    (q c : Nat) (hq : q < st.players.length)
    (hst : (pAt st.players q).handStatus = .allin)
    (hc : (pAt st.players q).unresolved = c) (hc0 : c ≠ 0) :
    ∃ stf, add_to_pots st = some stf ∧
      stf.pots.length = st.pots.length + (stageIncs st).length ∧
      (∀ r, r < (stageIncs st).length →
        (layerCap (stageIncs st) r ≤ c →
          q ∈ (potAt stf.pots (st.pots.length - 1 + r)).eligible) ∧
        (c < layerCap (stageIncs st) r →
          ¬ q ∈ (potAt stf.pots (st.pots.length - 1 + r)).eligible)) ∧
      ¬ q ∈ (potAt stf.pots (st.pots.length - 1 + (stageIncs st).length)).eligible := by
  obtain ⟨stf, hadd, aout⟩ := add_to_pots_spec st hinv hpots
  have hqallin : q ∈ allInContributors st :=
    (mem_allInContributors st q).mpr ⟨hq, by rw [hc]; exact hc0, hst⟩
  have hqnon : ¬ q ∈ nonAllInContributors st := fun hn =>
    ((mem_nonAllInContributors st q).mp hn).2.2 hst
  -- the first layer cap is at most c, so the layer list is nonempty
  have hqproc : q ∈ (sortDescBy (fun i => (pAt st.players i).unresolved)
      (allInContributors st)).reverse := by
    rw [List.mem_reverse]
    exact (sortDescBy_perm _ (allInContributors st)).mem_iff.mpr hqallin
  have hvalssorted : List.Pairwise (fun a b => a ≤ b)
      (((sortDescBy (fun i => (pAt st.players i).unresolved)
        (allInContributors st)).reverse).map fun j => (pAt st.players j).unresolved) := by
    rw [List.pairwise_map, List.pairwise_reverse]
    exact sortDescBy_sorted _ (allInContributors st)
  have hcvals : c ∈ ((sortDescBy (fun i => (pAt st.players i).unresolved)
      (allInContributors st)).reverse).map fun j => (pAt st.players j).unresolved :=
    List.mem_map.mpr ⟨q, hqproc, hc⟩
  obtain ⟨v, vrest, hvcons, hvle⟩ := layerIncs_head_le c _ hvalssorted hcvals hc0
  have hK1 : stageIncs st = v :: vrest := by
    rw [stageIncs]
    exact hvcons
  have hKpos : 0 < (stageIncs st).length := by rw [hK1]; simp
  have hcap0le : layerCap (stageIncs st) 0 ≤ c := by
    rw [hK1, layerCap_cons_zero]
    exact hvle
  refine ⟨stf, hadd, aout.plen, ?_, ?_⟩
  · intro r hr
    constructor
    · intro hcap
      exact (aout.layers r hr q).mpr
        (Or.inr (Or.inr ⟨hqallin, by rw [hc]; exact hcap⟩))
    · intro hcap hmem
      rcases (aout.layers r hr q).mp hmem with ⟨hr0, _⟩ | hn | ⟨_, hcap2⟩
      · subst hr0
        omega
      · exact hqnon hn
      · rw [hc] at hcap2
        omega
  · intro hmem
    rcases (aout.finalElig q).mp hmem with ⟨hK0, _⟩ | hn
    · omega
    · exact hqnon hn

/-- Witness for C2 at the worked example: bob (seat 1) is all-in for 9;
he is eligible for the 36-chip main pot (cap 9) and excluded from the
11-chip side pot (cap 20) and from the final leftover pot. -/
theorem side_pot_eligibility_witness :
    tstStMid.temp = sumUnresolved tstStMid ∧ tstStMid.pots ≠ [] ∧
    1 < tstStMid.players.length ∧
    (pAt tstStMid.players 1).handStatus = .allin ∧
    (pAt tstStMid.players 1).unresolved = 9 ∧
    ∃ stf, add_to_pots tstStMid = some stf ∧
      stf.pots.length = tstStMid.pots.length + (stageIncs tstStMid).length ∧
      (∀ r, r < (stageIncs tstStMid).length →
        (layerCap (stageIncs tstStMid) r ≤ 9 →
          1 ∈ (potAt stf.pots (tstStMid.pots.length - 1 + r)).eligible) ∧
        (9 < layerCap (stageIncs tstStMid) r →
          ¬ 1 ∈ (potAt stf.pots (tstStMid.pots.length - 1 + r)).eligible)) ∧
      ¬ 1 ∈ (potAt stf.pots
        (tstStMid.pots.length - 1 + (stageIncs tstStMid).length)).eligible := by
  refine ⟨by decide, by decide, by decide, by decide, by decide, ?_⟩
  exact side_pot_eligibility tstStMid (by decide) (by decide) 1 9 (by decide)
    (by decide) (by decide) (by decide)

/-! ## Raise rights -/

theorem bet_isSome (p : Player) (a : Int) (ha : 0 ≤ a) :
    ∃ pc, p.bet a = some pc := by
  unfold Player.bet
  rw [if_neg (not_lt.mpr ha)]
  split
  · exact ⟨_, rfl⟩
  · exact ⟨_, rfl⟩

theorem length_setRaiseOthersAux (i : Nat) :
    ∀ (ps : List Player) (j : Nat), (setRaiseOthersAux i j ps).length = ps.length
  | [], _ => rfl
  | p :: ps, j => by
    simp only [setRaiseOthersAux, List.length_cons]
    rw [length_setRaiseOthersAux i ps (j + 1)]

theorem getD_setRaiseOthersAux (i : Nat) :
    ∀ (ps : List Player) (j k : Nat), k < ps.length →
      (setRaiseOthersAux i j ps).getD k default =
        (if j + k = i then ps.getD k default else (ps.getD k default).set_raise)
  | [], _, k, h => by simp at h
  | p :: ps, j, 0, _ => by simp [setRaiseOthersAux]
  | p :: ps, j, k + 1, h => by
    simp only [setRaiseOthersAux, List.getD_cons_succ]
    rw [getD_setRaiseOthersAux i ps (j + 1) k (by simpa using h)]
    have hjk : j + 1 + k = j + (k + 1) := by omega
    rw [hjk]

theorem pAt_setRaiseOthers (ps : List Player) (i k : Nat) (h : k < ps.length) :
    pAt (setRaiseOthers ps i) k =
      (if k = i then pAt ps k else (pAt ps k).set_raise) := by
  unfold setRaiseOthers pAt
  rw [getD_setRaiseOthersAux i ps 0 k h]
  simp

theorem length_setRaiseOthers (ps : List Player) (i : Nat) :
    (setRaiseOthers ps i).length = ps.length :=
  length_setRaiseOthersAux i ps 0

/-- C3: raise-right reopening: when a player holding raise rights takes
an increase action, the engine first collects the call, then bets the
raise; if the actual raise increment is at least the current minimum
raise (a full raise) the minimum raise becomes that increment and every
other seated player's can_raise is set; if the increment falls short (a
short all-in raise) the minimum raise and every other player's can_raise
flag are left untouched; in both cases bet_to_call becomes the maximum
of the seats' stage commitments and its old value, so it never decreases
within the round. -/
theorem raise_right_reopening (st : RoundState) (i : Nat) (req : Int)
    (hi : i < st.players.length)
    (hle : (pAt st.players i).unresolved ≤ st.betToCall)
    (hcr : (pAt st.players i).canRaise = true) :
    ∃ st2, applyAction st i (.increase req) = some st2 ∧
      (st.minRaise ≤ actualRaise st i req →
        st2.minRaise = actualRaise st i req ∧
        ∀ j, j < st.players.length → j ≠ i →
          (pAt st2.players j).canRaise = true) ∧
      (actualRaise st i req < st.minRaise →
        st2.minRaise = st.minRaise ∧
        ∀ j, j ≠ i →
          (pAt st2.players j).canRaise = (pAt st.players j).canRaise) ∧
      st2.betToCall = max (getMaxBet st2.players) st.betToCall ∧
      st.betToCall ≤ st2.betToCall := by
  obtain ⟨pc, hbet1⟩ := bet_isSome (pAt st.players i)
    ((st.betToCall : Int) - (pAt st.players i).unresolved) (by omega)
  obtain ⟨pc2, hbet2⟩ := bet_isSome pc.1 (max (req - pc.2) (st.minRaise : Int))
    (le_trans (by omega) (le_max_right _ _))
  have hact : actualRaise st i req = pc2.2 := by
    unfold actualRaise
    rw [hbet1]
    dsimp only
    rw [hbet2]
  unfold applyAction
  rw [hbet1]
  simp only [Option.some_bind, hcr, if_pos, hbet2, Option.map_some']
  by_cases hfull : pc2.2 ≥ st.minRaise
  · rw [if_pos hfull]
    refine ⟨_, rfl, ?_, ?_, rfl, le_max_right _ _⟩
    · intro _
      refine ⟨hact.symm, ?_⟩
      intro j hj hne
      show (pAt ((setRaiseOthers st.players i).set i pc2.1) j).canRaise = true
      rw [pAt_set_ne _ _ _ _ hne,
        pAt_setRaiseOthers st.players i j (by omega), if_neg hne]
      rfl
    · intro hsh
      rw [hact] at hsh
      omega
  · rw [if_neg hfull]
    refine ⟨_, rfl, ?_, ?_, rfl, le_max_right _ _⟩
    · intro hf
      rw [hact] at hf
      omega
    · intro _
      refine ⟨rfl, ?_⟩
      intro j hne
      show (pAt (st.players.set i pc2.1) j).canRaise = (pAt st.players j).canRaise
      rw [pAt_set_ne _ _ _ _ hne]

/-- Witness for C3: a heads-up state where seat 0 raises to 6 over a
bet-to-call of 2 with minimum raise 2: the actual increment is 4, a full
raise, so seat 1's raise right is reopened and bet_to_call rises. -/
theorem raise_right_reopening_witness :
    0 < (RoundState.mk [⟨10, .active, 0, 0, true⟩, ⟨10, .active, 0, 0, false⟩]
      0 2 2 0 0 0).players.length ∧
    (pAt (RoundState.mk [⟨10, .active, 0, 0, true⟩, ⟨10, .active, 0, 0, false⟩]
      0 2 2 0 0 0).players 0).unresolved ≤ 2 ∧
    (pAt (RoundState.mk [⟨10, .active, 0, 0, true⟩, ⟨10, .active, 0, 0, false⟩]
      0 2 2 0 0 0).players 0).canRaise = true ∧
    ∃ st2, applyAction (RoundState.mk [⟨10, .active, 0, 0, true⟩,
        ⟨10, .active, 0, 0, false⟩] 0 2 2 0 0 0) 0 (.increase 6) = some st2 ∧
      (2 ≤ actualRaise (RoundState.mk [⟨10, .active, 0, 0, true⟩,
          ⟨10, .active, 0, 0, false⟩] 0 2 2 0 0 0) 0 6 →
        st2.minRaise = actualRaise (RoundState.mk [⟨10, .active, 0, 0, true⟩,
          ⟨10, .active, 0, 0, false⟩] 0 2 2 0 0 0) 0 6 ∧
        ∀ j, j < 2 → j ≠ 0 → (pAt st2.players j).canRaise = true) ∧
      (actualRaise (RoundState.mk [⟨10, .active, 0, 0, true⟩,
          ⟨10, .active, 0, 0, false⟩] 0 2 2 0 0 0) 0 6 < 2 →
        st2.minRaise = 2 ∧
        ∀ j, j ≠ 0 → (pAt st2.players j).canRaise =
          (pAt (RoundState.mk [⟨10, .active, 0, 0, true⟩,
            ⟨10, .active, 0, 0, false⟩] 0 2 2 0 0 0).players j).canRaise) ∧
      st2.betToCall = max (getMaxBet st2.players) 2 ∧
      2 ≤ st2.betToCall := by
  refine ⟨by decide, by decide, by decide, ?_⟩
  exact raise_right_reopening
    (RoundState.mk [⟨10, .active, 0, 0, true⟩, ⟨10, .active, 0, 0, false⟩]
      0 2 2 0 0 0) 0 6 (by decide) (by decide) (by decide)

/-! ## Betting round termination measure -/

theorem sumStacksL_set (ps : List Player) (i : Nat) (p2 : Player)
    (h : i < ps.length) :
    sumStacksL (ps.set i p2) + (pAt ps i).stack = sumStacksL ps + p2.stack :=
  sum_map_set Player.stack ps i p2 h

theorem muActive_set (ps : List Player) (i : Nat) (p2 : Player)
    (h : i < ps.length) :
    muActive (ps.set i p2) + (if (pAt ps i).handStatus = .active then 1 else 0) =
      muActive ps + (if p2.handStatus = .active then 1 else 0) := by
  unfold muActive
  exact sum_map_set (fun p : Player => if p.handStatus = .active then 1 else 0) ps i p2 h

theorem muRaise_set (ps : List Player) (i : Nat) (p2 : Player)
    (h : i < ps.length) :
    muRaise (ps.set i p2) +
        (if (pAt ps i).handStatus = .active ∧ (pAt ps i).canRaise then 1 else 0) =
      muRaise ps + (if p2.handStatus = .active ∧ p2.canRaise then 1 else 0) := by
  unfold muRaise
  exact sum_map_set
    (fun p : Player => if p.handStatus = .active ∧ p.canRaise then 1 else 0) ps i p2 h

theorem sumStacksL_setRaiseOthers (ps : List Player) (i : Nat) :
    sumStacksL (setRaiseOthers ps i) = sumStacksL ps := by
  refine sum_map_eq_of_pointwise Player.stack _ _ (length_setRaiseOthers ps i) ?_
  intro k hk
  rw [length_setRaiseOthers] at hk
  show (pAt (setRaiseOthers ps i) k).stack = (pAt ps k).stack
  rw [pAt_setRaiseOthers ps i k hk]
  split <;> rfl

theorem muActive_setRaiseOthers (ps : List Player) (i : Nat) :
    muActive (setRaiseOthers ps i) = muActive ps := by
  refine sum_map_eq_of_pointwise
    (fun p => if p.handStatus = .active then 1 else 0) _ _
    (length_setRaiseOthers ps i) ?_
  intro k hk
  rw [length_setRaiseOthers] at hk
  show (if (pAt (setRaiseOthers ps i) k).handStatus = .active then 1 else 0) =
    (if (pAt ps k).handStatus = .active then 1 else 0)
  rw [pAt_setRaiseOthers ps i k hk]
  split <;> rfl

theorem indicator_sum_le {α : Type} (g : α → Nat) (hg : ∀ x, g x ≤ 1) :
    ∀ l : List α, (l.map g).sum ≤ l.length
  | [] => le_refl 0
  | x :: xs => by
    simp only [List.map_cons, List.sum_cons, List.length_cons]
    have h1 := indicator_sum_le g hg xs
    have h2 := hg x
    omega

theorem muActive_le (ps : List Player) : muActive ps ≤ ps.length :=
  indicator_sum_le _ (fun p => by split <;> omega) ps

theorem muRaise_le (ps : List Player) : muRaise ps ≤ ps.length :=
  indicator_sum_le _ (fun p => by split <;> omega) ps

theorem pAt_stack_le_sum (ps : List Player) (i : Nat) (h : i < ps.length) :
    (pAt ps i).stack ≤ sumStacksL ps :=
  elem_le_sum_map Player.stack ps i h

/-- An actable player is active. -/
theorem is_actable_active (p : Player) (m : Nat)
    (h : p.is_actable m = true) : p.handStatus = .active := by
  unfold Player.is_actable at h
  by_cases hs : p.handStatus = .folded ∨ p.handStatus = .allin
  · rw [if_pos hs] at h
    exact absurd h (by simp)
  · cases hst : p.handStatus
    · rfl
    · exact absurd (Or.inl hst) hs
    · exact absurd (Or.inr hst) hs

/-- An actable player who has matched the bet still holds raise
rights. -/
theorem is_actable_matched_canRaise (p : Player) (m : Nat)
    (h : p.is_actable m = true) (hm : p.unresolved = m) : p.canRaise = true := by
  by_cases hc : p.canRaise = true
  · exact hc
  · exfalso
    rw [Bool.not_eq_true] at hc
    simp [Player.is_actable, hm, hc] at h

/-- Outcome of one successful Player.bet, split by the all-in clamp. -/
theorem bet_cases (p : Player) (a : Int) (p2 : Player) (c : Nat)
    (h : p.bet a = some (p2, c)) :
    p2.unresolved = p.unresolved + c ∧ p2.canRaise = false ∧
    ((p2.handStatus = .allin ∧ c = p.stack ∧ p2.stack = 0) ∨
     (p2.handStatus = p.handStatus ∧ c = a.toNat ∧ c < p.stack ∧
       p2.stack = p.stack - c)) := by
  unfold Player.bet at h
  split at h
  · exact absurd h (by simp)
  · rename_i hneg
    split at h
    · rename_i hclamp
      rw [Option.some.injEq, Prod.mk.injEq] at h
      obtain ⟨hp, hc⟩ := h
      subst hp
      subst hc
      exact ⟨rfl, rfl, Or.inl ⟨rfl, rfl, rfl⟩⟩
    · rename_i hclamp
      rw [Option.some.injEq, Prod.mk.injEq] at h
      obtain ⟨hp, hc⟩ := h
      subst hp
      subst hc
      exact ⟨rfl, rfl, Or.inr ⟨rfl, rfl, by omega, rfl⟩⟩

/-- An actable player without raise rights has not matched the bet. -/
theorem is_actable_noraise_unmatched (p : Player) (m : Nat)
    (h : p.is_actable m = true) (hc : p.canRaise = false) : p.unresolved ≠ m := by
  intro hm
  simp [Player.is_actable, hm, hc] at h

/-- A bet moves the popped amount out of the seat's stack. -/
theorem bet_stack_sub (p : Player) (a : Int) (p2 : Player) (c : Nat)
    (h : p.bet a = some (p2, c)) : p2.stack + c = p.stack := by
  rcases (bet_cases p a p2 c h).2.2 with ⟨_, hc, hs⟩ | ⟨_, _, hlt, hs⟩ <;> omega

/-- Every action the actable branch accepts strictly shrinks the
lexicographic (stacks, actives, raise rights) measure of the player
list, keeps the list length, and never lowers min_raise. -/
theorem applyAction_measure (st : RoundState) (act : AgentAction) (st2 : RoundState)
    (hi : st.cur < st.players.length)
    (hle : (pAt st.players st.cur).unresolved ≤ st.betToCall)
    (hact : (pAt st.players st.cur).is_actable st.betToCall = true)
    (hmr : 1 ≤ st.minRaise)
    (h : applyAction st st.cur act = some st2) :
    st2.players.length = st.players.length ∧
    st.minRaise ≤ st2.minRaise ∧
    measureDrop st.players st2.players := by
  have hactive : (pAt st.players st.cur).handStatus = .active :=
    is_actable_active _ _ hact
  cases act with
  | invalid => exact absurd h (by simp [applyAction])
  | fold =>
    simp only [applyAction, Option.some.injEq] at h
    subst h
    refine ⟨by simp, le_refl _, ?_⟩
    show measureDrop st.players (st.players.set st.cur (pAt st.players st.cur).fold)
    have hsum := sumStacksL_set st.players st.cur ((pAt st.players st.cur).fold) hi
    have hA := muActive_set st.players st.cur ((pAt st.players st.cur).fold) hi
    rw [if_pos hactive] at hA
    have hfs : ((pAt st.players st.cur).fold).stack = (pAt st.players st.cur).stack := rfl
    have hfh : ((pAt st.players st.cur).fold).handStatus = .folded := rfl
    rw [hfs] at hsum
    rw [hfh, if_neg (by decide : ¬ (HandStatus.folded = HandStatus.active))] at hA
    exact Or.inr (Or.inl ⟨by omega, by omega⟩)
  | matchBet =>
    simp only [applyAction] at h
    cases hbet : (pAt st.players st.cur).bet
        ((st.betToCall : Int) - (pAt st.players st.cur).unresolved) with
    | none => rw [hbet] at h; exact absurd h (by simp)
    | some pc =>
      rw [hbet] at h
      simp only [Option.map_some', Option.some.injEq] at h
      obtain ⟨p2, c⟩ := pc
      subst h
      have hfacts := bet_cases _ _ _ _ hbet
      have hstk := bet_stack_sub _ _ _ _ hbet
      refine ⟨by simp, le_refl _, ?_⟩
      show measureDrop st.players (st.players.set st.cur p2)
      have hsum := sumStacksL_set st.players st.cur p2 hi
      have hA := muActive_set st.players st.cur p2 hi
      have hR := muRaise_set st.players st.cur p2 hi
      rw [if_pos hactive] at hA
      have hstkle := pAt_stack_le_sum st.players st.cur hi
      by_cases hc0 : c = 0
      · subst hc0
        rcases hfacts.2.2 with ⟨hall, hcs, hzs⟩ | ⟨hsame, hcval, hclt, hcs⟩
        · -- all-in clamp with a zero stack: an active seat goes all-in
          rw [hall, if_neg (by decide : ¬ (HandStatus.allin = HandStatus.active))] at hA
          exact Or.inr (Or.inl ⟨by omega, by omega⟩)
        · -- a check: the seat keeps its stack but loses its raise right
          have hmatched : (pAt st.players st.cur).unresolved = st.betToCall := by
            omega
          have hcr := is_actable_matched_canRaise _ _ hact hmatched
          rw [hsame, if_pos hactive] at hA
          rw [if_pos ⟨hactive, hcr⟩] at hR
          rw [hfacts.2.1] at hR
          rw [if_neg (by simp)] at hR
          exact Or.inr (Or.inr ⟨by omega, by omega, by omega⟩)
      · exact Or.inl (by omega)
  | increase req =>
    simp only [applyAction] at h
    cases hbet : (pAt st.players st.cur).bet
        ((st.betToCall : Int) - (pAt st.players st.cur).unresolved) with
    | none => rw [hbet] at h; exact absurd h (by simp)
    | some pc =>
      rw [hbet] at h
      simp only [Option.some_bind] at h
      obtain ⟨p2, c1⟩ := pc
      have hfacts := bet_cases _ _ _ _ hbet
      have hstk := bet_stack_sub _ _ _ _ hbet
      have hstkle := pAt_stack_le_sum st.players st.cur hi
      have hsum := sumStacksL_set st.players st.cur p2 hi
      have hA := muActive_set st.players st.cur p2 hi
      rw [if_pos hactive] at hA
      by_cases hcr : (pAt st.players st.cur).canRaise = true
      · rw [if_pos hcr] at h
        cases hbet2 : p2.bet (max (req - (c1 : Int)) (st.minRaise : Int)) with
        | none => rw [hbet2] at h; exact absurd h (by simp)
        | some pc2 =>
          rw [hbet2] at h
          simp only [Option.map_some', Option.some.injEq] at h
          obtain ⟨p3, c2⟩ := pc2
          have hfacts2 := bet_cases _ _ _ _ hbet2
          have hstk2 := bet_stack_sub _ _ _ _ hbet2
          subst h
          by_cases hfull : c2 ≥ st.minRaise
          · -- a full raise pays at least min_raise ≥ 1 from the stack
            have hc2pos : 1 ≤ c2 := le_trans hmr hfull
            simp only [if_pos hfull]
            constructor
            · show ((setRaiseOthers st.players st.cur).set st.cur p3).length =
                st.players.length
              rw [List.length_set, length_setRaiseOthers]
            refine ⟨le_of_le_of_eq hfull rfl, ?_⟩
            show measureDrop st.players ((setRaiseOthers st.players st.cur).set st.cur p3)
            have hiL : st.cur < (setRaiseOthers st.players st.cur).length := by
              rw [length_setRaiseOthers]; exact hi
            have hsumL := sumStacksL_set (setRaiseOthers st.players st.cur) st.cur p3 hiL
            have hatL : pAt (setRaiseOthers st.players st.cur) st.cur =
                pAt st.players st.cur := by
              rw [pAt_setRaiseOthers st.players st.cur st.cur hi, if_pos rfl]
            rw [hatL, sumStacksL_setRaiseOthers] at hsumL
            exact Or.inl (by omega)
          · -- a short raise: the seat must have gone all-in for zero
            simp only [if_neg hfull]
            refine ⟨by simp, le_refl _, ?_⟩
            show measureDrop st.players (st.players.set st.cur p3)
            have hsum3 := sumStacksL_set st.players st.cur p3 hi
            have hA3 := muActive_set st.players st.cur p3 hi
            rw [if_pos hactive] at hA3
            by_cases hc12 : c1 + c2 = 0
            · -- both transfers were zero: the stack was empty, all-in
              have hc1 : c1 = 0 := by omega
              have hc2 : c2 = 0 := by omega
              have hamt : (0 : Int) ≤ max (req - (c1 : Int)) (st.minRaise : Int) :=
                le_trans (by omega) (le_max_right _ _)
              rcases hfacts2.2.2 with ⟨hall, hcs, hzs⟩ | ⟨hsame, hcval, hclt, hcs⟩
              · rw [hall, if_neg (by decide : ¬ (HandStatus.allin = HandStatus.active))] at hA3
                exact Or.inr (Or.inl ⟨by omega, by omega⟩)
              · exfalso
                have : (max (req - (c1 : Int)) (st.minRaise : Int)).toNat = 0 := by
                  omega
                have hge : (st.minRaise : Int) ≤ max (req - (c1 : Int)) (st.minRaise : Int) :=
                  le_max_right _ _
                omega
            · exact Or.inl (by omega)
      · -- no raise right: this is just a call, and an actable seat
        -- without raise rights is unmatched, so the call costs chips
        rw [if_neg hcr] at h
        rw [Option.some.injEq] at h
        subst h
        refine ⟨by simp, le_refl _, ?_⟩
        show measureDrop st.players (st.players.set st.cur p2)
        have hunm : (pAt st.players st.cur).unresolved ≠ st.betToCall :=
          is_actable_noraise_unmatched _ _ hact (by
            cases hcb : (pAt st.players st.cur).canRaise
            · rfl
            · exact absurd hcb hcr)
        by_cases hc0 : c1 = 0
        · subst hc0
          rcases hfacts.2.2 with ⟨hall, hcs, hzs⟩ | ⟨hsame, hcval, hclt, hcs⟩
          · rw [hall, if_neg (by decide : ¬ (HandStatus.allin = HandStatus.active))] at hA
            exact Or.inr (Or.inl ⟨by omega, by omega⟩)
          · exfalso
            omega
        · exact Or.inl (by omega)

/-- One unfolding of the fueled betting-round loop. -/
theorem bettingRound_succ (agent : Nat → AgentAction) (fuel : Nat) (st : RoundState) :
    bettingRound agent (fuel + 1) st =
      (if st.retry < st.players.length - 1 then
        if (activePlayers st.players).length = 1 ∧
            ((activePlayers st.players).getD 0 default).unresolved = st.betToCall then
          some (.ok st)
        else if (activePlayers st.players).length = 0 then
          some (.ok st)
        else if st.cur < st.players.length then
          if (pAt st.players st.cur).unresolved ≤ st.betToCall then
            if (pAt st.players st.cur).is_actable st.betToCall then
              match applyAction st st.cur (agent st.decisions) with
              | none => some (.error ())
              | some st2 =>
                let st3 : RoundState :=
                  if ¬ (pAt st2.players st.cur).handStatus = .folded then
                    { st2 with retry := 0, decisions := st2.decisions + 1 }
                  else
                    { st2 with retry := st2.retry + 1, decisions := st2.decisions + 1 }
                bettingRound agent fuel
                  { st3 with cur := if st3.cur + 1 = st3.players.length then 0
                                    else st3.cur + 1 }
            else
              bettingRound agent fuel
                { st with
                    retry := st.retry + 1
                    cur := if st.cur + 1 = st.players.length then 0 else st.cur + 1 }
          else some (.error ())
        else some (.error ())
      else some (.ok st)) := rfl

/-- Positional comparison for one lexicographic slot. -/
theorem lex_step (m a b a2 b2 : Nat) (hb : b < m)
    (h : a < a2 ∨ (a = a2 ∧ b < b2)) : a * m + b < a2 * m + b2 := by
  rcases h with h | ⟨he, h⟩
  · calc a * m + b < a * m + m := by omega
      _ = (a + 1) * m := by ring
      _ ≤ a2 * m := Nat.mul_le_mul_right m h
      _ ≤ a2 * m + b2 := Nat.le_add_right _ _
  · subst he
    omega

/-- A measure drop of the player list shrinks the round measure,
whatever happens to the retry counter. -/
theorem roundMeasure_lt_of_drop (st st2 : RoundState)
    (hlen : st2.players.length = st.players.length)
    (hdrop : measureDrop st.players st2.players) :
    roundMeasure st2 < roundMeasure st := by
  unfold roundMeasure
  rw [hlen]
  have hA2 := muActive_le st2.players
  have hA1 := muActive_le st.players
  have hR2 := muRaise_le st2.players
  have hR1 := muRaise_le st.players
  rw [hlen] at hA2 hR2
  refine lex_step _ _ _ _ _ (by omega) (Or.inl ?_)
  rcases hdrop with h1 | ⟨he1, h2⟩ | ⟨he1, he2, h3⟩
  · exact lex_step _ _ _ _ _ (by omega)
      (Or.inl (lex_step _ _ _ _ _ (by omega) (Or.inl h1)))
  · exact lex_step _ _ _ _ _ (by omega)
      (Or.inl (lex_step _ _ _ _ _ (by omega) (Or.inr ⟨by rw [he1], h2⟩)))
  · exact lex_step _ _ _ _ _ (by omega)
      (Or.inr ⟨by rw [he1, he2], h3⟩)

/-- Skipping a seat shrinks the round measure (the retry budget). -/
theorem roundMeasure_lt_skip (st : RoundState) (st2 : RoundState)
    (hp : st2.players = st.players) (hr : st2.retry = st.retry + 1)
    (hguard : st.retry < st.players.length - 1) :
    roundMeasure st2 < roundMeasure st := by
  unfold roundMeasure
  rw [hp, hr]
  omega

/-- The betting round runs to completion (a return or a raised
exception) with fuel one beyond the round measure: every iteration
either exits or strictly shrinks the measure. -/
theorem bettingRound_total (agent : Nat → AgentAction) :
    ∀ (N : Nat) (st : RoundState), roundMeasure st < N → 1 ≤ st.minRaise →
      ∃ res, bettingRound agent N st = some res := by
  intro N
  induction N with
  | zero => intro st h _; exact absurd h (Nat.not_lt_zero _)
  | succ M ih =>
    intro st hm hmr
    rw [bettingRound_succ]
    by_cases hguard : st.retry < st.players.length - 1
    · rw [if_pos hguard]
      by_cases hone : (activePlayers st.players).length = 1 ∧
          ((activePlayers st.players).getD 0 default).unresolved = st.betToCall
      · rw [if_pos hone]; exact ⟨_, rfl⟩
      · rw [if_neg hone]
        by_cases hzero : (activePlayers st.players).length = 0
        · rw [if_pos hzero]; exact ⟨_, rfl⟩
        · rw [if_neg hzero]
          by_cases hcur : st.cur < st.players.length
          · rw [if_pos hcur]
            by_cases hassert : (pAt st.players st.cur).unresolved ≤ st.betToCall
            · rw [if_pos hassert]
              by_cases hactable : (pAt st.players st.cur).is_actable st.betToCall = true
              · rw [if_pos hactable]
                cases happly : applyAction st st.cur (agent st.decisions) with
                | none => exact ⟨_, rfl⟩
                | some st2 =>
                  have hms := applyAction_measure st (agent st.decisions) st2
                    hcur hassert hactable hmr happly
                  obtain ⟨hlen2, hmr2, hdrop⟩ := hms
                  set st3 : RoundState :=
                    if ¬ (pAt st2.players st.cur).handStatus = .folded then
                      { st2 with retry := 0, decisions := st2.decisions + 1 }
                    else
                      { st2 with retry := st2.retry + 1, decisions := st2.decisions + 1 }
                    with hst3
                  have hp3 : st3.players = st2.players := by
                    rw [hst3]; split <;> rfl
                  have hm3 : st3.minRaise = st2.minRaise := by
                    rw [hst3]; split <;> rfl
                  set stN : RoundState :=
                    { st3 with cur := if st3.cur + 1 = st3.players.length then 0
                                      else st3.cur + 1 } with hstN
                  have hdropN : roundMeasure stN < roundMeasure st := by
                    refine roundMeasure_lt_of_drop st stN ?_ ?_
                    · show stN.players.length = st.players.length
                      rw [hstN]
                      show st3.players.length = st.players.length
                      rw [hp3, hlen2]
                    · show measureDrop st.players stN.players
                      rw [hstN]
                      show measureDrop st.players st3.players
                      rw [hp3]
                      exact hdrop
                  obtain ⟨res, hres⟩ := ih stN (by omega)
                    (by
                      show 1 ≤ stN.minRaise
                      rw [hstN]
                      show 1 ≤ st3.minRaise
                      rw [hm3]
                      omega)
                  exact ⟨res, hres⟩
              · rw [if_neg hactable]
                have hdropN : roundMeasure
                    { st with
                        retry := st.retry + 1
                        cur := if st.cur + 1 = st.players.length then 0
                               else st.cur + 1 } < roundMeasure st :=
                  roundMeasure_lt_skip st _ rfl rfl hguard
                exact ih _ (by omega) hmr
            · rw [if_neg hassert]; exact ⟨_, rfl⟩
          · rw [if_neg hcur]; exact ⟨_, rfl⟩
    · rw [if_neg hguard]; exact ⟨_, rfl⟩

/-- When the loop returns normally, either at most one seat is still
active or the retry counter has reached its cap of numSeats - 1. -/
theorem bettingRound_exit (agent : Nat → AgentAction) :
    ∀ (fuel : Nat) (st st2 : RoundState),
      bettingRound agent fuel st = some (.ok st2) →
      (activePlayers st2.players).length ≤ 1 ∨
        st2.players.length - 1 ≤ st2.retry
  | 0, st, st2, h => by simp [bettingRound] at h
  | fuel + 1, st, st2, h => by
    rw [bettingRound_succ] at h
    by_cases hguard : st.retry < st.players.length - 1
    · rw [if_pos hguard] at h
      by_cases hone : (activePlayers st.players).length = 1 ∧
          ((activePlayers st.players).getD 0 default).unresolved = st.betToCall
      · rw [if_pos hone] at h
        rw [Option.some.injEq, Except.ok.injEq] at h
        subst h
        exact Or.inl (le_of_eq hone.1)
      · rw [if_neg hone] at h
        by_cases hzero : (activePlayers st.players).length = 0
        · rw [if_pos hzero] at h
          rw [Option.some.injEq, Except.ok.injEq] at h
          subst h
          exact Or.inl (by omega)
        · rw [if_neg hzero] at h
          by_cases hcur : st.cur < st.players.length
          · rw [if_pos hcur] at h
            by_cases hassert : (pAt st.players st.cur).unresolved ≤ st.betToCall
            · rw [if_pos hassert] at h
              by_cases hactable : (pAt st.players st.cur).is_actable st.betToCall = true
              · rw [if_pos hactable] at h
                cases happly : applyAction st st.cur (agent st.decisions) with
                | none => rw [happly] at h; exact absurd h (by simp)
                | some stA =>
                  rw [happly] at h
                  exact bettingRound_exit agent fuel _ st2 h
              · rw [if_neg hactable] at h
                exact bettingRound_exit agent fuel _ st2 h
            · rw [if_neg hassert] at h
              exact absurd h (by simp)
          · rw [if_neg hcur] at h
            exact absurd h (by simp)
    · rw [if_neg hguard] at h
      rw [Option.some.injEq, Except.ok.injEq] at h
      subst h
      exact Or.inr (by omega)

/-- Once no seat is actable (everyone has matched the bet and exhausted
raise rights, or is folded or all-in), the round only skips seats and
returns within numSeats further loop iterations. -/
theorem settled_round_ends (agent : Nat → AgentAction) (n : Nat) :
    ∀ (fuel : Nat) (st : RoundState),
      st.players.length = n →
      st.cur < n →
      (∀ i, i < n → (pAt st.players i).unresolved ≤ st.betToCall) →
      (∀ i, i < n → (pAt st.players i).is_actable st.betToCall = false) →
      n - 1 - st.retry < fuel →
      ∃ st2, bettingRound agent fuel st = some (.ok st2)
  | 0, st, _, _, _, _, hf => absurd hf (by omega)
  | fuel + 1, st, hn, hcur, hassert, hskip, hf => by
    rw [bettingRound_succ]
    by_cases hguard : st.retry < st.players.length - 1
    · rw [if_pos hguard]
      by_cases hone : (activePlayers st.players).length = 1 ∧
          ((activePlayers st.players).getD 0 default).unresolved = st.betToCall
      · rw [if_pos hone]; exact ⟨st, rfl⟩
      · rw [if_neg hone]
        by_cases hzero : (activePlayers st.players).length = 0
        · rw [if_pos hzero]; exact ⟨st, rfl⟩
        · rw [if_neg hzero]
          rw [if_pos (hn ▸ hcur)]
          rw [if_pos (hassert st.cur (hn ▸ hcur))]
          rw [if_neg (by rw [hskip st.cur (hn ▸ hcur)]; exact Bool.false_ne_true)]
          refine settled_round_ends agent n fuel _ hn ?_ hassert hskip ?_
          · show (if st.cur + 1 = st.players.length then 0 else st.cur + 1) < n
            rw [hn]
            split <;> omega
          · show n - 1 - (st.retry + 1) < fuel
            rw [hn] at hguard
            omega
    · rw [if_neg hguard]; exact ⟨st, rfl⟩

/-- C4: betting-round termination: (a) for every agent decision
sequence the fueled loop completes (returns or raises) within
roundMeasure + 1 iterations, so the round always terminates (the engine
passes min_raise = big_blind ≥ 1); (b) whenever the round returns
normally, either fewer than two players remain active or the retry
counter has hit its cap numSeats - 1 (a full lap with no actable seat);
(c) once every seat fails is_actable (all active players matched and
out of raise rights), the round ends within numSeats further loop
iterations, i.e. at most numSeats consecutive skipped-actor checks. -/
theorem betting_round_termination (agent : Nat → AgentAction) (st : RoundState)
    (hmr : 1 ≤ st.minRaise) :
    (∃ res, bettingRound agent (roundMeasure st + 1) st = some res) ∧
    (∀ fuel st2, bettingRound agent fuel st = some (.ok st2) →
      (activePlayers st2.players).length ≤ 1 ∨
        st2.players.length - 1 ≤ st2.retry) ∧
    ((∀ i, i < st.players.length →
        (pAt st.players i).unresolved ≤ st.betToCall) →
     (∀ i, i < st.players.length →
        (pAt st.players i).is_actable st.betToCall = false) →
     st.cur < st.players.length →
     ∃ st2, bettingRound agent (st.players.length + 1) st = some (.ok st2)) := by
  refine ⟨bettingRound_total agent (roundMeasure st + 1) st (by omega) hmr,
    fun fuel st2 h => bettingRound_exit agent fuel st st2 h,
    fun hassert hskip hcur => ?_⟩
  exact settled_round_ends agent st.players.length (st.players.length + 1) st
    rfl hcur hassert hskip (by omega)

/-- Witness for C4: a settled heads-up state (both players matched at 2,
raise rights spent) with an agent that would always fold. -/
theorem betting_round_termination_witness :
    1 ≤ (RoundState.mk [⟨8, .active, 2, 2, false⟩, ⟨8, .active, 2, 2, false⟩]
      4 2 2 0 0 2).minRaise ∧
    (∃ res, bettingRound (fun _ => AgentAction.fold)
      (roundMeasure (RoundState.mk [⟨8, .active, 2, 2, false⟩,
        ⟨8, .active, 2, 2, false⟩] 4 2 2 0 0 2) + 1)
      (RoundState.mk [⟨8, .active, 2, 2, false⟩, ⟨8, .active, 2, 2, false⟩]
        4 2 2 0 0 2) = some res) := by
  refine ⟨by decide, ?_⟩
  exact (betting_round_termination (fun _ => AgentAction.fold)
    (RoundState.mk [⟨8, .active, 2, 2, false⟩, ⟨8, .active, 2, 2, false⟩]
      4 2 2 0 0 2) (by decide)).1

/-! ## Showdown pot split -/

/-- Adding a chips to the seat at position i grows the sum by a. -/
theorem sum_set_nat (l : List Nat) (i a : Nat) (h : i < l.length) :
    (l.set i (l.getD i 0 + a)).sum = l.sum + a := by
  have hm := sum_map_set (fun x : Nat => x) l i (l.getD i 0 + a) h
  simp only [List.map_id'] at hm
  have hd : (default : Nat) = 0 := rfl
  rw [hd] at hm
  omega

/-- Player.gain for seat i: the pot drops by the amount, the seat's
stack grows by it, nothing else moves. -/
theorem gainOne_spec (s : ShowdownSt) (i a : Nat) (hi : i < s.seats.length)
    (ha : a ≤ s.pot) :
    ∃ s2, gainOne s i a = some s2 ∧
      s2.pot = s.pot - a ∧
      s2.seats.length = s.seats.length ∧
      s2.seats.getD i 0 = s.seats.getD i 0 + a ∧
      (∀ j, j ≠ i → s2.seats.getD j 0 = s.seats.getD j 0) ∧
      s2.seats.sum = s.seats.sum + a := by
  refine ⟨⟨s.seats.set i (s.seats.getD i 0 + a), s.pot - a⟩, ?_, rfl, ?_, ?_, ?_, ?_⟩
  · unfold gainOne
    rw [if_pos ha]
  · simp [List.length_set]
  · exact getD_set_self s.seats i _ hi
  · exact fun j hj => getD_set_ne s.seats i j _ hj
  · exact sum_set_nat s.seats i a hi

/-- The equal-split loop pays every winner exactly split chips and
drains winners * split from the pot. -/
theorem paySplit_spec (split : Nat) :
    ∀ (ws : List Nat) (s : ShowdownSt),
      ws.Nodup → (∀ w ∈ ws, w < s.seats.length) →
      ws.length * split ≤ s.pot →
      ∃ s2, paySplit split ws s = some s2 ∧
        s2.pot = s.pot - ws.length * split ∧
        s2.seats.length = s.seats.length ∧
        (∀ w ∈ ws, s2.seats.getD w 0 = s.seats.getD w 0 + split) ∧
        (∀ j, ¬ j ∈ ws → s2.seats.getD j 0 = s.seats.getD j 0) ∧
        s2.seats.sum = s.seats.sum + ws.length * split
  | [], s, _, _, _ => by
    refine ⟨s, rfl, by simp, rfl, by simp, fun j _ => rfl, by simp⟩
  | w :: ws, s, hnd, hb, hle => by
    have hw : w < s.seats.length := hb w (List.mem_cons_self w ws)
    have hmul : (ws.length + 1) * split = ws.length * split + split :=
      Nat.succ_mul _ _
    have hlen1 : (w :: ws).length = ws.length + 1 := List.length_cons w ws
    rw [hlen1, hmul] at hle
    have hsp : split ≤ s.pot := by omega
    obtain ⟨s1, hg, hpot1, hslen1, hself1, hother1, hsum1⟩ :=
      gainOne_spec s w split hw hsp
    obtain ⟨hwmem, hnd'⟩ := List.nodup_cons.mp hnd
    obtain ⟨s2, hrec, hpot2, hslen2, hwin2, hother2, hsum2⟩ :=
      paySplit_spec split ws s1 hnd'
        (fun v hv => by rw [hslen1]; exact hb v (List.mem_cons_of_mem w hv))
        (by omega)
    refine ⟨s2, ?_, ?_, ?_, ?_, ?_, ?_⟩
    · show (match gainOne s w split with
        | none => none
        | some sx => paySplit split ws sx) = some s2
      rw [hg]
      exact hrec
    · rw [hlen1, hmul]
      omega
    · rw [hslen2, hslen1]
    · intro v hv
      rcases List.mem_cons.mp hv with hv | hv
      · subst hv
        rw [hother2 v hwmem, hself1]
      · rw [hwin2 v hv, hother1 v (fun he => hwmem (he ▸ hv))]
    · intro j hj
      rw [hother2 j (fun hm => hj (List.mem_cons_of_mem w hm)),
        hother1 j (fun he => hj (he ▸ List.mem_cons_self w ws))]
    · rw [hlen1, hmul]
      omega

/-- Seats visited in one lap are pairwise distinct. -/
theorem cyclicSeats_nodup (n index : Nat) : (cyclicSeats n index).Nodup := by
  rcases Nat.eq_zero_or_pos n with hn | hn
  · subst hn
    simp [cyclicSeats]
  unfold cyclicSeats
  refine List.Nodup.map_on ?_ (List.nodup_range n)
  intro j1 h1 j2 h2 heq
  rw [List.mem_range] at h1 h2
  have hm1 : index % n + j1 < 2 * n := by
    have := Nat.mod_lt index hn
    omega
  have hsplit : ∀ j : Nat, j < n →
      (index + j) % n = (if index % n + j < n then index % n + j
                         else index % n + j - n) := by
    intro j hj
    have hmod : (index + j) % n = (index % n + j) % n := by
      rw [Nat.mod_add_mod]
    rw [hmod]
    split
    · exact Nat.mod_eq_of_lt (by omega)
    · have hge : n ≤ index % n + j := by omega
      rw [Nat.mod_eq_sub_mod hge]
      have := Nat.mod_lt index hn
      exact Nat.mod_eq_of_lt (by omega)
  rw [hsplit j1 h1, hsplit j2 h2] at heq
  have := Nat.mod_lt index hn
  split at heq <;> split at heq <;> omega

/-- Every seat below n is visited in one lap. -/
theorem mem_cyclicSeats (n index : Nat) (hn : 0 < n) (k : Nat) (hk : k < n) :
    k ∈ cyclicSeats n index := by
  unfold cyclicSeats
  refine List.mem_map.mpr ⟨(k + n - index % n) % n,
    List.mem_range.mpr (Nat.mod_lt _ hn), ?_⟩
  have him : index % n < n := Nat.mod_lt _ hn
  have hdm : n * (index / n) + index % n = index := Nat.div_add_mod index n
  have hX : index + ((k + n - index % n) % n) = n * (index / n) + (k + n - index % n) % n + index % n := by
    omega
  rcases Nat.lt_or_ge (k + n - index % n) n with hc | hc
  · rw [hX, Nat.mod_eq_of_lt hc]
    have hY : n * (index / n) + (k + n - index % n) + index % n =
        n * (index / n + 1) + k := by ring_nf; omega
    rw [hY, Nat.mul_add_mod]
    exact Nat.mod_eq_of_lt hk
  · have hc2 : k + n - index % n - n < n := by omega
    rw [Nat.mod_eq_sub_mod hc, Nat.mod_eq_of_lt hc2]
    have hY : index + (k + n - index % n - n) = n * (index / n) + k := by omega
    rw [hY, Nat.mul_add_mod]
    exact Nat.mod_eq_of_lt hk

/-- One lap meets every winner seat, so the filtered lap is at least as
long as the (duplicate-free) winner list. -/
theorem filter_cyclic_count (ws : List Nat) (n index : Nat) (hnd : ws.Nodup)
    (hws : ∀ w ∈ ws, w < n) :
    ws.length ≤ ((cyclicSeats n index).filter (fun i => decide (i ∈ ws))).length := by
  by_cases hne : ws = []
  · simp [hne]
  obtain ⟨w0, hw0⟩ := List.exists_mem_of_ne_nil ws hne
  have hn : 0 < n := Nat.lt_of_le_of_lt (Nat.zero_le _) (hws w0 hw0)
  have hsub : ws.toFinset ⊆
      ((cyclicSeats n index).filter (fun i => decide (i ∈ ws))).toFinset := by
    intro x hx
    rw [List.mem_toFinset] at hx ⊢
    exact List.mem_filter.mpr
      ⟨mem_cyclicSeats n index hn x (hws x hx), decide_eq_true hx⟩
  calc ws.length = ws.toFinset.card := (List.toFinset_card_of_nodup hnd).symm
    _ ≤ _ := Finset.card_le_card hsub
    _ ≤ _ := List.toFinset_card_le _

/-- The odd-chip walk along the upcoming lap seats L: it pays one chip
to each of the first o winner seats it meets and stops, within
L.length + 1 iterations. -/
theorem oddLoop_walk (ws : List Nat) (n : Nat) :
    ∀ (L : List Nat) (index o fuel : Nat) (s : ShowdownSt),
      index < n →
      L = (List.range L.length).map (fun j => (index + j) % n) →
      L.length ≤ n →
      s.seats.length = n →
      o ≤ s.pot →
      o ≤ (L.filter (fun i => decide (i ∈ ws))).length →
      L.length < fuel →
      ∃ s2, oddLoop ws n fuel o index s = some s2 ∧
        s2.pot = s.pot - o ∧
        s2.seats.length = n ∧
        (∀ j, j < n →
          s2.seats.getD j 0 = s.seats.getD j 0 +
            (if j ∈ (L.filter (fun i => decide (i ∈ ws))).take o then 1
             else 0)) ∧
        s2.seats.sum = s.seats.sum + o
  | [], index, o, fuel, s => by
    intro hidx hL hlen hslen hpot hfil hfuel
    cases fuel with
    | zero => exact absurd hfuel (Nat.not_lt_zero _)
    | succ f =>
      have ho : o = 0 := by simpa using hfil
      subst ho
      exact ⟨s, rfl, by omega, hslen, fun j hj => by simp, by omega⟩
  | i :: L', index, o, fuel, s => by
    intro hidx hL hlen hslen hpot hfil hfuel
    cases fuel with
    | zero => exact absurd hfuel (Nat.not_lt_zero _)
    | succ f =>
      have hrs : List.range ((i :: L').length) =
          0 :: (List.range L'.length).map Nat.succ := by
        rw [List.length_cons, List.range_succ_eq_map]
      rw [hrs, List.map_cons, List.map_map] at hL
      injection hL with hi hL'
      simp only [Function.comp_def] at hL'
      have hieq : i = index := by
        rw [hi]
        show (index + 0) % n = index
        rw [Nat.add_zero, Nat.mod_eq_of_lt hidx]
      have hieq2 : index = i := hieq.symm
      subst hieq2
      have hlen' : L'.length + 1 ≤ n := by simpa using hlen
      have hfuel' : L'.length < f := by simpa using hfuel
      have hidx2 : (if index + 1 = n then 0 else index + 1) < n := by
        split <;> omega
      have hL'2 : L' = (List.range L'.length).map
          (fun j => ((if index + 1 = n then 0 else index + 1) + j) % n) := by
        nth_rewrite 1 [hL']
        refine List.map_congr_left ?_
        intro j hj
        show (index + Nat.succ j) % n = _
        by_cases hn1 : index + 1 = n
        · rw [if_pos hn1]
          have he : index + Nat.succ j = n + j := by omega
          rw [he, Nat.add_mod_left, Nat.zero_add]
        · rw [if_neg hn1]
          have he : index + Nat.succ j = index + 1 + j := by omega
          rw [he]
      rcases o with _ | o'
      · exact ⟨s, rfl, by omega, hslen, fun j hj => by simp, by omega⟩
      have hstep : oddLoop ws n (f + 1) (o' + 1) index s =
          (if index ∈ ws then
            match gainOne s index 1 with
            | none => none
            | some sx => oddLoop ws n f o'
                (if index + 1 = n then 0 else index + 1) sx
          else oddLoop ws n f (o' + 1)
            (if index + 1 = n then 0 else index + 1) s) := rfl
      by_cases hw : index ∈ ws
      · have hfL : (index :: L').filter (fun i => decide (i ∈ ws)) =
            index :: L'.filter (fun i => decide (i ∈ ws)) := by
          rw [List.filter_cons, if_pos (by simp [hw])]
        rw [hfL, List.length_cons] at hfil
        obtain ⟨s1, hg, hp1, hl1, hs1, ho1, hsum1⟩ :=
          gainOne_spec s index 1 (by omega) (by omega)
        obtain ⟨s2, hrec, hp2, hl2, hg2, hsum2⟩ :=
          oddLoop_walk ws n L' (if index + 1 = n then 0 else index + 1) o' f s1
            hidx2 hL'2 (by omega) (by omega) (by omega) (by omega) hfuel'
        have hinL' : ¬ index ∈ L' := by
          intro hmem
          rw [hL'] at hmem
          obtain ⟨j', hj', heq⟩ := List.mem_map.mp hmem
          rw [List.mem_range] at hj'
          rcases Nat.lt_or_ge (index + Nat.succ j') n with hc | hc
          · rw [Nat.mod_eq_of_lt hc] at heq
            omega
          · rw [Nat.mod_eq_sub_mod hc, Nat.mod_eq_of_lt (by omega)] at heq
            omega
        have hne : ¬ index ∈ (L'.filter (fun i => decide (i ∈ ws))).take o' :=
          fun hmem => hinL' (List.mem_of_mem_filter (List.take_subset _ _ hmem))
        refine ⟨s2, ?_, by omega, hl2, ?_, by omega⟩
        · rw [hstep, if_pos hw, hg]
          exact hrec
        · intro j hj
          rw [hfL, List.take_succ_cons]
          by_cases hji : j = index
          · subst hji
            rw [hg2 j hj, if_neg hne, if_pos (List.mem_cons_self _ _), hs1]
          · rw [hg2 j hj, ho1 j hji]
            have hmi : (j ∈ index :: (L'.filter (fun i => decide (i ∈ ws))).take o') ↔
                (j ∈ (L'.filter (fun i => decide (i ∈ ws))).take o') := by
              rw [List.mem_cons]
              exact ⟨fun h => h.resolve_left hji, Or.inr⟩
            by_cases hmem : j ∈ (L'.filter (fun i => decide (i ∈ ws))).take o'
            · rw [if_pos hmem, if_pos (hmi.mpr hmem)]
            · rw [if_neg hmem, if_neg (fun h => hmem (hmi.mp h))]
      · have hfL : (index :: L').filter (fun i => decide (i ∈ ws)) =
            L'.filter (fun i => decide (i ∈ ws)) := by
          rw [List.filter_cons, if_neg (by simp [hw])]
        rw [hfL] at hfil
        obtain ⟨s2, hrec, hp2, hl2, hg2, hsum2⟩ :=
          oddLoop_walk ws n L' (if index + 1 = n then 0 else index + 1) (o' + 1) f s
            hidx2 hL'2 (by omega) hslen hpot hfil hfuel'
        refine ⟨s2, ?_, hp2, hl2, ?_, hsum2⟩
        · rw [hstep, if_neg hw]
          exact hrec
        · intro j hj
          rw [hfL]
          exact hg2 j hj

/-- C5: showdown split correctness: for a pot of amount P with the k
tied winners ws (distinct seats among the n seats), the distribution
succeeds; every winner receives P / k chips plus one extra chip
exactly when it is among the first P % k winner seats met walking in
seating order from the reference (small blind) seat; exactly P % k
extra chips are handed out, each to a winner; non-winners' stacks are
untouched; the total paid out is P and the pot stack ends at 0. -/
theorem showdown_split (ws : List Nat) (n sbIndex : Nat) (s : ShowdownSt)
    (hlen : s.seats.length = n) (hne : ws ≠ []) (hnd : ws.Nodup)
    (hws : ∀ w ∈ ws, w < n) (hsb : sbIndex < n) :
    ∃ s2, distributePot ws n sbIndex s = some s2 ∧
      s2.pot = 0 ∧
      (∀ w ∈ ws, s2.seats.getD w 0 =
        s.seats.getD w 0 + s.pot / ws.length +
          (if w ∈ extraSeats ws n sbIndex (s.pot % ws.length) then 1
           else 0)) ∧
      (extraSeats ws n sbIndex (s.pot % ws.length)).length =
        s.pot % ws.length ∧
      (∀ e ∈ extraSeats ws n sbIndex (s.pot % ws.length), e ∈ ws) ∧
      (∀ j, ¬ j ∈ ws → s2.seats.getD j 0 = s.seats.getD j 0) ∧
      s2.seats.sum = s.seats.sum + s.pot := by
  have hk : 0 < ws.length := List.length_pos.mpr hne
  have hdm : ws.length * (s.pot / ws.length) + s.pot % ws.length = s.pot :=
    Nat.div_add_mod s.pot ws.length
  have hmod : s.pot % ws.length < ws.length := Nat.mod_lt _ hk
  obtain ⟨s1, hpay, hp1, hl1, hwin1, hoth1, hsum1⟩ :=
    paySplit_spec (s.pot / ws.length) ws s hnd
      (fun w hw => by rw [hlen]; exact hws w hw) (by omega)
  have hp1' : s1.pot = s.pot % ws.length := by omega
  have hfc := filter_cyclic_count ws n sbIndex hnd hws
  have hextlen : (extraSeats ws n sbIndex (s.pot % ws.length)).length =
      s.pot % ws.length := by
    unfold extraSeats
    rw [List.length_take]
    omega
  have hextmem : ∀ e ∈ extraSeats ws n sbIndex (s.pot % ws.length),
      e ∈ ws := by
    intro e he
    unfold extraSeats at he
    have h1 : e ∈ (cyclicSeats n sbIndex).filter (fun i => decide (i ∈ ws)) :=
      List.take_subset _ _ he
    have h2 := List.of_mem_filter h1
    exact of_decide_eq_true h2
  have hunf : distributePot ws n sbIndex s =
      (match paySplit (s.pot / ws.length) ws s with
       | none => none
       | some sx =>
         if 0 < s.pot % ws.length then
           oddLoop ws n (n + 1) (s.pot % ws.length) sbIndex sx
         else some sx) := rfl
  rw [hunf, hpay]
  show ∃ s2, (if 0 < s.pot % ws.length then
      oddLoop ws n (n + 1) (s.pot % ws.length) sbIndex s1
    else some s1) = some s2 ∧ _
  by_cases hodd : 0 < s.pot % ws.length
  · rw [if_pos hodd]
    have hclen : (cyclicSeats n sbIndex).length = n := by
      unfold cyclicSeats
      rw [List.length_map, List.length_range]
    obtain ⟨s2, hloop, hp2, hl2, hg2, hsum2⟩ :=
      oddLoop_walk ws n (cyclicSeats n sbIndex) sbIndex (s.pot % ws.length)
        (n + 1) s1 hsb (by rw [hclen]; rfl) (by rw [hclen])
        (by rw [hl1, hlen]) (by omega) (by omega) (by rw [hclen]; omega)
    have hext : extraSeats ws n sbIndex (s.pot % ws.length) =
        ((cyclicSeats n sbIndex).filter
          (fun i => decide (i ∈ ws))).take (s.pot % ws.length) := rfl
    refine ⟨s2, hloop, by omega, ?_, hextlen, hextmem, ?_, by omega⟩
    · intro w hw
      rw [hg2 w (hws w hw), hwin1 w hw, hext]
    · intro j hj
      by_cases hjn : j < n
      · rw [hg2 j hjn, hoth1 j hj, ← hext,
          if_neg (fun hm => hj (hextmem j hm)), Nat.add_zero]
      · have h1 : s.seats.length ≤ j := by omega
        have h2 : s2.seats.length ≤ j := by omega
        rw [List.getD_eq_default _ _ h1, List.getD_eq_default _ _ h2]
  · rw [if_neg hodd]
    have hodd0 : s.pot % ws.length = 0 := by omega
    have hext0 : extraSeats ws n sbIndex (s.pot % ws.length) = [] :=
      List.length_eq_zero.mp (by omega)
    refine ⟨s1, rfl, by omega, ?_, hextlen, hextmem, ?_, by omega⟩
    · intro w hw
      rw [hwin1 w hw, hext0]
      simp
    · intro j hj
      exact hoth1 j hj

/-- Witness for C5: pot 7 split among winners at seats 0 and 2 of a
3-seat table with the small blind at seat 1: each winner gets
7 / 2 = 3, the single odd chip goes to seat 2 (the first winner in
seating order from the small blind), and the pot ends empty. -/
theorem showdown_split_witness :
    ((ShowdownSt.mk [5, 5, 5] 7).seats.length = 3 ∧
      ([0, 2] : List Nat) ≠ [] ∧ ([0, 2] : List Nat).Nodup ∧
      (∀ w ∈ ([0, 2] : List Nat), w < 3) ∧ (1 : Nat) < 3) ∧
    (∃ s2, distributePot [0, 2] 3 1 (ShowdownSt.mk [5, 5, 5] 7) = some s2 ∧
      s2.pot = 0 ∧
      (∀ w ∈ ([0, 2] : List Nat), s2.seats.getD w 0 =
        (ShowdownSt.mk [5, 5, 5] 7).seats.getD w 0 +
          (ShowdownSt.mk [5, 5, 5] 7).pot / ([0, 2] : List Nat).length +
          (if w ∈ extraSeats [0, 2] 3 1
              ((ShowdownSt.mk [5, 5, 5] 7).pot % ([0, 2] : List Nat).length)
           then 1 else 0)) ∧
      (extraSeats [0, 2] 3 1 ((ShowdownSt.mk [5, 5, 5] 7).pot %
          ([0, 2] : List Nat).length)).length =
        (ShowdownSt.mk [5, 5, 5] 7).pot % ([0, 2] : List Nat).length ∧
      (∀ e ∈ extraSeats [0, 2] 3 1 ((ShowdownSt.mk [5, 5, 5] 7).pot %
          ([0, 2] : List Nat).length), e ∈ ([0, 2] : List Nat)) ∧
      (∀ j, ¬ j ∈ ([0, 2] : List Nat) →
        s2.seats.getD j 0 = (ShowdownSt.mk [5, 5, 5] 7).seats.getD j 0) ∧
      s2.seats.sum = (ShowdownSt.mk [5, 5, 5] 7).seats.sum +
        (ShowdownSt.mk [5, 5, 5] 7).pot) :=
  ⟨⟨by decide, by decide, by decide, by decide, by decide⟩,
    showdown_split [0, 2] 3 1 (ShowdownSt.mk [5, 5, 5] 7) (by decide)
      (by decide) (by decide) (by decide) (by decide)⟩

/-! ## End-of-hand ranking -/

/-- Inserting never yields the empty list. -/
theorem insertDescRank_ne_nil (x : RankPlayer) :
    ∀ l : List RankPlayer, insertDescRank x l ≠ []
  | [] => by simp [insertDescRank]
  | y :: ys => by
    rw [insertDescRank]
    split <;> simp

/-- Sorting a nonempty list yields a nonempty list. -/
theorem sortDescRank_ne_nil :
    ∀ l : List RankPlayer, l ≠ [] → sortDescRank l ≠ []
  | [], h => absurd rfl h
  | x :: xs, _ => insertDescRank_ne_nil x (sortDescRank xs)

/-- C6 (code bug): whenever a hand ends with at least one player's
stack at zero (and a survivor, as hand_ended asserts), the ranking
loop's first step is player.update_rank(alive_count + 1 + i, hand_id),
a two-argument call to the one-parameter Player.update_rank, so
hand_ended raises TypeError: no busted player is ever assigned a rank
and nobody is marked eliminated, contrary to the claim.  (game.py's
end_game reading the never-defined player.finish_at corroborates that
this code path was never exercised.) -/
theorem end_of_hand_ranking (ps : List RankPlayer) (handId : Nat)
    (hbust : ps.filter (fun p => p.stack = 0) ≠ [])
    (halive : ps.filter (fun p => ¬ p.stack = 0) ≠ []) :
    handEnded ps handId = .error .typeError := by
  unfold handEnded
  rw [if_pos (show (ps.filter (fun p => ¬ p.stack = 0)).length ≥ 1 from
    List.length_pos.mpr halive)]
  obtain ⟨q, rest, hqr⟩ :=
    List.exists_cons_of_ne_nil (sortDescRank_ne_nil _ hbust)
  rw [hqr]
  have hrl : rankLoop (ps.filter (fun p => ¬ p.stack = 0)).length handId 0
      (q :: rest) none = .error .typeError := rfl
  rw [hrl]

/-- Witness for C6: a two-player hand in which the short stack went
all-in for 30 and busted; hand_ended on it raises TypeError. -/
theorem end_of_hand_ranking_witness :
    (RankPlayer.mk 0 30 none :: [RankPlayer.mk 60 30 none]).filter
        (fun p => p.stack = 0) ≠ [] ∧
    (RankPlayer.mk 0 30 none :: [RankPlayer.mk 60 30 none]).filter
        (fun p => ¬ p.stack = 0) ≠ [] ∧
    handEnded (RankPlayer.mk 0 30 none :: [RankPlayer.mk 60 30 none]) 5 =
      .error .typeError :=
  ⟨by decide, by decide,
    end_of_hand_ranking (RankPlayer.mk 0 30 none :: [RankPlayer.mk 60 30 none])
      5 (by decide) (by decide)⟩

end Poker
